import Mathlib

/-!
Verification of the pdf_compare tool (`src/pdf_compare.py`) against its
natural-language specification.

Modeling conventions:
* Strings are `List Char`; character classes of Python's `re` module
  (`\w`, `\s`, `\d`) and `str.lower`/`str.strip` are modeled on the ASCII
  range (the repository's discard rules and normalizer are designed for
  ASCII titles).
* File-system traversal and PDF page extraction are the excluded external
  collaborators: the matcher takes lists of `(relative_path, extracted_title)`
  pairs, and the title extractor takes the already-extracted page text.
* Floating point similarities are modeled as `ℚ`; `difflib` only ever forms
  `2*M / T` with small integers, so ordering and equality agree with floats.
* Python `while` loops and the recursive matching-block decomposition are
  modeled with explicit fuel chosen large enough to never be exhausted on
  the actual call sites, keeping every definition kernel-computable.
-/

/-! ### Character classes (Python `re` on ASCII) -/

/-- Python `\s` on the ASCII range: space, tab, newline, carriage return,
vertical tab, form feed. -/
def pyIsSpace (c : Char) : Bool :=
  c = ' ' || c = '\t' || c = '\n' || c = '\r' || c = '\x0b' || c = '\x0c'

/-- Python `\w` on the ASCII range: alphanumeric or underscore. -/
def pyIsWord (c : Char) : Bool :=
  c.isAlphanum || c = '_'

/-- ASCII table of Python `str.lower`: upper-case letters map to their
lower-case counterparts, everything else is unchanged. -/
def pyToLower (c : Char) : Char :=
  match c with
  | 'A' => 'a' | 'B' => 'b' | 'C' => 'c' | 'D' => 'd' | 'E' => 'e'
  | 'F' => 'f' | 'G' => 'g' | 'H' => 'h' | 'I' => 'i' | 'J' => 'j'
  | 'K' => 'k' | 'L' => 'l' | 'M' => 'm' | 'N' => 'n' | 'O' => 'o'
  | 'P' => 'p' | 'Q' => 'q' | 'R' => 'r' | 'S' => 's' | 'T' => 't'
  | 'U' => 'u' | 'V' => 'v' | 'W' => 'w' | 'X' => 'x' | 'Y' => 'y'
  | 'Z' => 'z'
  | c => c

/-! ### `normalize_title` (source lines 71-80)

```python
def normalize_title(title):
    if not title:
        return ""
    title = title.lower()
    title = re.sub(r'[^\w\s]', ' ', title)
    title = re.sub(r'\s+', ' ', title)
    return title.strip()
``` -/

/-- `title.lower()`. -/
def lowerStr (l : List Char) : List Char := l.map pyToLower

/-- `re.sub(r'[^\w\s]', ' ', title)`: every character that is neither a word
character nor whitespace is replaced by a single space (a per-character map,
since the pattern matches exactly one character). -/
def subNonWord (l : List Char) : List Char :=
  l.map (fun c => if pyIsWord c || pyIsSpace c then c else ' ')

/-- `re.sub(r'\s+', ' ', title)`: each maximal run of whitespace characters
is replaced by one space. -/
def collapseWs : List Char → List Char
  | [] => []
  | [c] => if pyIsSpace c then [' '] else [c]
  | c₁ :: c₂ :: cs =>
    if pyIsSpace c₁ && pyIsSpace c₂ then collapseWs (c₂ :: cs)
    else (if pyIsSpace c₁ then ' ' else c₁) :: collapseWs (c₂ :: cs)

/-- `str.strip()`: drop whitespace from both ends. -/
def stripStr (l : List Char) : List Char :=
  ((l.dropWhile pyIsSpace).reverse.dropWhile pyIsSpace).reverse

/-- `normalize_title` on a (possibly empty) string; the `None` argument case
of the Python function never reaches it because callers test truthiness
first, and falsy inputs return `""`. -/
def normalize_title (title : List Char) : List Char :=
  if title = [] then []
  else stripStr (collapseWs (subNonWord (lowerStr title)))

/-! ### `difflib.SequenceMatcher(None, a, b).ratio()`

The matcher (source line 142) computes
`difflib.SequenceMatcher(None, normalized_title_a, normalized_title_b).ratio()`.
We model CPython's `difflib` faithfully: `b2j` with the autojunk purge of
popular elements (no junk, since `isjunk is None`), `find_longest_match`'s
dynamic programming over `j2len`, the two non-junk extension loops (the two
junk extension loops are no-ops because `bjunk` is empty when `isjunk is
None`), the recursive matching-block decomposition of
`get_matching_blocks` (only the total matched size is needed for `ratio`),
and `_calculate_ratio`. -/

/-- Autojunk: when `len(b) >= 200`, elements occurring more than
`len(b) // 100 + 1` times are removed from `b2j`. -/
def isPopular (b : List Char) (c : Char) : Bool :=
  decide (200 ≤ b.length) && decide (b.length / 100 + 1 < b.count c)

/-- `b2j.get(c, [])`: the ascending list of positions of `c` in `b`,
empty if `c` was purged as popular. -/
def bj (b : List Char) (c : Char) : List Nat :=
  if isPopular b c then []
  else (List.range b.length).filter (fun j => b.getD j ' ' == c)

/-- The running best block `(besti, bestj, bestsize)` of
`find_longest_match`. -/
structure Best where
  besti : Nat
  bestj : Nat
  bestsize : Nat
deriving DecidableEq

/-- `j2len.get(j-1, 0) + 1`; for `j = 0` Python reads key `-1`, which is
absent, so the chain length is `1`. -/
def chainLen (o : Nat → Nat) (j : Nat) : Nat :=
  if j = 0 then 1 else o (j - 1) + 1

/-- The inner loop of `find_longest_match` over `b2j.get(a[i], [])`:
`continue` below `blo`, `break` at `bhi`, record `newj2len[j]` and update
the best block on strict improvement. `o` is the previous row's `j2len`. -/
def innerLoop (blo bhi i : Nat) (o : Nat → Nat) :
    List Nat → (Nat → Nat) → Best → (Nat → Nat) × Best
  | [], nj, bst => (nj, bst)
  | j :: js, nj, bst =>
    if j < blo then innerLoop blo bhi i o js nj bst
    else if bhi ≤ j then (nj, bst)
    else
      let k := chainLen o j
      innerLoop blo bhi i o js (fun x => if x = j then k else nj x)
        (if bst.bestsize < k then ⟨i + 1 - k, j + 1 - k, k⟩ else bst)

/-- The outer loop of `find_longest_match` over `range(alo, ahi)`; each row
starts from a fresh `newj2len`. -/
def outerLoop (a b : List Char) (blo bhi : Nat) :
    List Nat → (Nat → Nat) → Best → Best
  | [], _, bst => bst
  | i :: rows, o, bst =>
    let r := innerLoop blo bhi i o (bj b (a.getD i ' ')) (fun _ => 0) bst
    outerLoop a b blo bhi rows r.1 r.2

/-- First extension loop: extend the best block leftwards while the
preceding characters agree (with `isjunk is None` nothing is junk, so the
`not isbjunk` test always passes and the later junk-extension loop never
runs). The fuel `besti` strictly bounds the number of iterations. -/
def extendLeft (a b : List Char) (alo blo : Nat) : Nat → Best → Best
  | 0, bst => bst
  | fuel + 1, bst =>
    if alo < bst.besti ∧ blo < bst.bestj ∧
        a.getD (bst.besti - 1) ' ' = b.getD (bst.bestj - 1) ' ' then
      extendLeft a b alo blo fuel ⟨bst.besti - 1, bst.bestj - 1, bst.bestsize + 1⟩
    else bst

/-- Second extension loop: extend the best block rightwards while the
following characters agree. The fuel `ahi` bounds the iterations since
each one needs `besti + bestsize < ahi`. -/
def extendRight (a b : List Char) (ahi bhi : Nat) : Nat → Best → Best
  | 0, bst => bst
  | fuel + 1, bst =>
    if bst.besti + bst.bestsize < ahi ∧ bst.bestj + bst.bestsize < bhi ∧
        a.getD (bst.besti + bst.bestsize) ' ' = b.getD (bst.bestj + bst.bestsize) ' ' then
      extendRight a b ahi bhi fuel ⟨bst.besti, bst.bestj, bst.bestsize + 1⟩
    else bst

/-- `find_longest_match(alo, ahi, blo, bhi)`. -/
def find_longest_match (a b : List Char) (alo ahi blo bhi : Nat) : Best :=
  extendRight a b ahi bhi ahi
    (extendLeft a b alo blo
      (outerLoop a b blo bhi (List.range' alo (ahi - alo)) (fun _ => 0)
        ⟨alo, blo, 0⟩).besti
      (outerLoop a b blo bhi (List.range' alo (ahi - alo)) (fun _ => 0)
        ⟨alo, blo, 0⟩))

/-- Total size of the matching blocks of `get_matching_blocks`, which is
what `ratio` sums: the recursion of the work queue, where a window
contributes its longest match plus the totals of the two remainder
windows. Merging adjacent blocks and the terminating sentinel do not
change the total. The fuel is strictly larger than the recursion depth on
every reachable window (each sub-window is strictly smaller on both
sides). -/
def matchesAux (a b : List Char) : Nat → Nat → Nat → Nat → Nat → Nat
  | 0, _, _, _, _ => 0
  | fuel + 1, alo, ahi, blo, bhi =>
    let m := find_longest_match a b alo ahi blo bhi
    if m.bestsize = 0 then 0
    else
      m.bestsize
        + (if alo < m.besti ∧ blo < m.bestj then
            matchesAux a b fuel alo m.besti blo m.bestj else 0)
        + (if m.besti + m.bestsize < ahi ∧ m.bestj + m.bestsize < bhi then
            matchesAux a b fuel (m.besti + m.bestsize) ahi
              (m.bestj + m.bestsize) bhi else 0)

/-- `sum(size for (_, _, size) in get_matching_blocks())`. -/
def matchesTotal (a b : List Char) : Nat :=
  matchesAux a b (a.length + b.length + 1) 0 a.length 0 b.length

/-- `_calculate_ratio(matches, len(a) + len(b))`:
`2.0 * matches / length` when the combined length is nonzero, else `1.0`
(`mkRat` is exact rational division, which keeps the definition
kernel-computable; the value is `2 * matches / length`). -/
def match_ratio (a b : List Char) : ℚ :=
  if a.length + b.length = 0 then 1
  else mkRat (2 * (matchesTotal a b : Int)) (a.length + b.length)

/-- Length of the maximal run of non-popular characters of `s` ending at
position `i`, clipped at window start `alo` (proof-only auxiliary for the
diagonal analysis of `find_longest_match`). -/
def runD (s : List Char) (alo : Nat) : Nat → Nat
  | 0 => if isPopular s (s.getD 0 ' ') then 0 else 1
  | i + 1 =>
    if isPopular s (s.getD (i + 1) ' ') then 0
    else if i + 1 ≤ alo then 1
    else runD s alo i + 1

/-! ### `extract_title_from_pdf` (source lines 9-69)

The PDF reading itself (PyPDF2, page fallback, exception handling) is the
excluded collaborator; the model takes the extracted page text and covers
lines 28-65: `None` for empty text, line splitting/stripping, the
candidate scan with its discard rules and early stop, the join of the
first three candidates, and the 100-character fallback. -/

/-- Python `split('\n')`: split at every newline, keeping empty pieces. -/
def splitLines : List Char → List (List Char)
  | [] => [[]]
  | c :: cs =>
    let r := splitLines cs
    if c = '\n' then [] :: r
    else (c :: r.headD []) :: r.tail

/-- Case-insensitive prefix test: the lowered line starts with `p`
(patterns are written lower-case). -/
def startsWithLower (p : List Char) (l : List Char) : Bool :=
  p.isPrefixOf (l.map pyToLower)

/-- A non-empty all-digit line (`^\d+$`). -/
def isDigitStr (l : List Char) : Bool :=
  !l.isEmpty && l.all Char.isDigit

/-- `re.search(r'^\d+$|^Vol\.|^Abstract|^Pages|^\d{4}$|^Journal of', line,
re.IGNORECASE)`: every alternative is anchored at line start. -/
def skipSearch (l : List Char) : Bool :=
  isDigitStr l
    || startsWithLower ("vol.".toList) l
    || startsWithLower ("abstract".toList) l
    || startsWithLower ("pages".toList) l
    || (decide (l.length = 4) && l.all Char.isDigit)
    || startsWithLower ("journal of".toList) l

/-- `re.match(r'^(Received|Submitted|Accepted|Published|Copyright|DOI)',
line, re.IGNORECASE)`. -/
def skipMatch (l : List Char) : Bool :=
  startsWithLower ("received".toList) l
    || startsWithLower ("submitted".toList) l
    || startsWithLower ("accepted".toList) l
    || startsWithLower ("published".toList) l
    || startsWithLower ("copyright".toList) l
    || startsWithLower ("doi".toList) l

/-- A line survives all three discard rules (length rule included). -/
def survives (l : List Char) : Bool :=
  !skipSearch l && !decide (l.length < 10) && !skipMatch l

/-- The candidate scan of lines 39-56 over `enumerate(lines[:10])`:
three `continue`s for the discard rules, append, then
`if i >= 2 and len(potential_title_lines) > 0: break`. -/
def scanLoop : List (Nat × List Char) → List (List Char) → List (List Char)
  | [], acc => acc
  | (i, line) :: rest, acc =>
    if skipSearch line then scanLoop rest acc
    else if line.length < 10 then scanLoop rest acc
    else if skipMatch line then scanLoop rest acc
    else
      let acc' := acc ++ [line]
      if 2 ≤ i ∧ 0 < acc'.length then acc' else scanLoop rest acc'

/-- `potential_title_lines` accumulated by the scan. -/
def potential_title_lines (lines : List (List Char)) : List (List Char) :=
  scanLoop ((lines.take 10).enum) []

/-- `' '.join(ls)`. -/
def joinSpace (ls : List (List Char)) : List Char :=
  List.intercalate [' '] ls

/-- The first scanned position at index `≥ 2` whose line survives the
discard rules (proof auxiliary describing where the source's scan stops). -/
def firstStop (lines : List (List Char)) : Option (Nat × List Char) :=
  ((lines.take 10).enum).find? (fun p => decide (2 ≤ p.1) && survives p.2)

/-- Lines 28-65 of `extract_title_from_pdf`, given the extracted page
text: `None` for empty text; otherwise split into lines, strip, drop
empties, scan for candidates, join the first three, and fall back to the
first 100 characters of the raw text when no candidate survived and the
text is longer than 100 characters. -/
def extract_title_from_pdf (first_page_text : List Char) : Option (List Char) :=
  if first_page_text.isEmpty then none
  else
    let lines := ((splitLines first_page_text).map stripStr).filter
      (fun l => !l.isEmpty)
    let cands := potential_title_lines lines
    let potential_title := joinSpace (cands.take 3)
    if potential_title.isEmpty && decide (100 < first_page_text.length) then
      some (first_page_text.take 100)
    else some potential_title

/-- Modelled from the claim C4 wording (not from the source): a scan that
always inspects the first three lines and, from index 3 on, stops before
inspecting the current line as soon as any candidate has been accumulated,
regardless of whether that line would survive the discard rules. -/
def scanClaimC4 : Nat → List (List Char) → List (List Char) → List (List Char)
  | _, acc, [] => acc
  | i, acc, line :: rest =>
    if 3 ≤ i ∧ acc ≠ [] then acc
    else if survives line then scanClaimC4 (i + 1) (acc ++ [line]) rest
    else scanClaimC4 (i + 1) acc rest

/-! ### `find_similar_titles` (source lines 82-158)

File enumeration (`Path.glob`) and per-file extraction are collaborators;
the model takes, for each folder, the list of `(relative_path,
extracted_title)` pairs in enumeration order (`extracted_title = none`
models an extraction failure). Relative paths produced by `glob` are
distinct, so the insertion-ordered Python dict `folder_a_titles` is
modeled as the list of its entries in insertion order. -/

/-- One value of `folder_a_titles`. -/
structure TitleInfo where
  original : List Char
  normalized : List Char
deriving DecidableEq

/-- One entry of `similar_papers`. -/
structure MatchCand where
  path_a : String
  path_b : String
  title_a : List Char
  title_b : List Char
  similarity : ℚ
deriving DecidableEq

/-- Lines 108-120: folder A's files are inserted when the extracted title
is truthy (not `None` and not the empty string). -/
def buildIndexA (filesA : List (String × Option (List Char))) :
    List (String × TitleInfo) :=
  filesA.foldl
    (fun acc f =>
      match f.2 with
      | none => acc
      | some t => if t = [] then acc else
          acc ++ [(f.1, ⟨t, normalize_title t⟩)])
    []

/-- Lines 138-151: compare one folder-B title against every folder-A index
entry, appending a match whenever `similarity >= similarity_threshold`. -/
def compareRow (idxA : List (String × TitleInfo)) (pb : String)
    (tb : List Char) (thr : ℚ) : List MatchCand :=
  idxA.foldl
    (fun acc e =>
      let sim := match_ratio e.2.normalized (normalize_title tb)
      if thr ≤ sim then acc ++ [⟨e.1, pb, e.2.original, tb, sim⟩] else acc)
    []

/-- Lines 129-153: the discovery-ordered `similar_papers` list before the
final sort — outer loop over folder B's enumeration, inner loop over the
folder-A index. -/
def collectCandidates (filesA filesB : List (String × Option (List Char)))
    (thr : ℚ) : List MatchCand :=
  let idxA := buildIndexA filesA
  filesB.foldl
    (fun acc f =>
      match f.2 with
      | none => acc
      | some tb => if tb = [] then acc else acc ++ compareRow idxA f.1 tb thr)
    []

/-- The sort key order of line 156: `similarity` descending. -/
def simDesc (x y : MatchCand) : Prop :=
  y.similarity ≤ x.similarity

instance : DecidableRel simDesc :=
  fun x y => inferInstanceAs (Decidable (y.similarity ≤ x.similarity))

/-- Lines 82-158: collect the candidates, then
`similar_papers.sort(key=lambda x: x['similarity'], reverse=True)` —
CPython's sort is stable, and stable descending sorting coincides with
`List.insertionSort simDesc` (an element is inserted before exactly the
already-placed elements of strictly greater similarity). -/
def find_similar_titles (filesA filesB : List (String × Option (List Char)))
    (thr : ℚ) : List MatchCand :=
  List.insertionSort simDesc (collectCandidates filesA filesB thr)

/-- The `(path_a, path_b)` pairs of a match report. -/
def pairsOf (l : List MatchCand) : List (String × String) :=
  l.map (fun c => (c.path_a, c.path_b))

/-! ### Proof-only auxiliary predicates -/

/-- No two adjacent whitespace characters. -/
def noDoubleWs (x y : Char) : Prop :=
  ¬(pyIsSpace x = true ∧ pyIsSpace y = true)

/-- Canonical form produced by `normalize_title`: only lower-case word
characters and single separating spaces, no whitespace at either end. -/
def Canon (l : List Char) : Prop :=
  (∀ c ∈ l, (pyIsWord c = true ∧ pyToLower c = c ∧ pyIsSpace c = false) ∨ c = ' ') ∧
  List.Chain' noDoubleWs l ∧
  (∀ c, l.head? = some c → pyIsSpace c = false) ∧
  (∀ c, l.getLast? = some c → pyIsSpace c = false)

/-- Invariant of the `j2len` map entering row `i` of `find_longest_match`:
a positive entry at `j` is a diagonal chain of equal characters of that
length ending at `(i - 1, j)` that stays inside the window. -/
def OInv (a b : List Char) (alo blo bhi i : Nat) (f : Nat → Nat) : Prop :=
  ∀ j, 1 ≤ f j → blo ≤ j ∧ j < bhi ∧ alo + f j ≤ i ∧ blo + f j ≤ j + 1 ∧
    ∀ t, t < f j → a.getD (i - 1 - t) ' ' = b.getD (j - t) ' '

/-- Invariant of the running best block: it lies inside the window (`hi`
is the processed bound on the `a` side) and is an actual character match. -/
def BestInv (a b : List Char) (alo blo hi bhi : Nat) (bst : Best) : Prop :=
  alo ≤ bst.besti ∧ blo ≤ bst.bestj ∧ bst.besti + bst.bestsize ≤ hi ∧
  bst.bestj + bst.bestsize ≤ bhi ∧
  ∀ t, t < bst.bestsize → a.getD (bst.besti + t) ' ' = b.getD (bst.bestj + t) ' '

/-- Diagonal-case invariant of the `j2len` map entering row `i` when both
sequences are the same string `s` and the window is `[alo, ahi) × [alo,
ahi)`: every positive entry is bounded by the non-popular run lengths
`runD` ending at its column and at the previous row, the previous row's
diagonal entry is exactly its run length, and the map entering the first
row is empty. -/
def DOInv (s : List Char) (alo i : Nat) (o : Nat → Nat) : Prop :=
  (∀ j, 1 ≤ o j → alo ≤ j ∧ alo + o j ≤ j + 1 ∧ o j ≤ runD s alo j ∧
    (alo < i → o j ≤ runD s alo (i - 1))) ∧
  (alo < i → o (i - 1) = runD s alo (i - 1)) ∧
  (i ≤ alo → ∀ j, o j = 0)

/-- Diagonal-case invariant of the best block after the rows below `i`:
it sits on the diagonal inside the window and its size dominates every
non-popular run ending at a processed row. -/
def DBest (s : List Char) (alo i : Nat) (bst : Best) : Prop :=
  bst.besti = bst.bestj ∧ alo ≤ bst.besti ∧ bst.besti + bst.bestsize ≤ i ∧
  ∀ i', alo ≤ i' → i' < i → runD s alo i' ≤ bst.bestsize

/-- The positions of `s`'s character `s[i]` strictly below the diagonal
`i` (proof decomposition of `bj` for the diagonal analysis). -/
def diagLow (s : List Char) (i : Nat) : List Nat :=
  (List.range' 0 i).filter (fun j => s.getD j ' ' == s.getD i ' ')

/-- The positions of `s`'s character `s[i]` strictly above the diagonal
`i`. -/
def diagHigh (s : List Char) (i : Nat) : List Nat :=
  (List.range' (i + 1) (s.length - i - 1)).filter
    (fun j => s.getD j ' ' == s.getD i ' ')

/-! ## Theorems -/

/-! ### The text normalizer (claims C5 and C7) -/

theorem pyIsSpace_elim {c : Char} (h : pyIsSpace c = true) :
    c = ' ' ∨ c = '\t' ∨ c = '\n' ∨ c = '\r' ∨ c = '\x0b' ∨ c = '\x0c' := by
  simp [pyIsSpace] at h
  tauto

theorem pyToLower_idem (c : Char) : pyToLower (pyToLower c) = pyToLower c := by
  by_cases hA : c = 'A'; · subst hA; decide
  by_cases hB : c = 'B'; · subst hB; decide
  by_cases hC : c = 'C'; · subst hC; decide
  by_cases hD : c = 'D'; · subst hD; decide
  by_cases hE : c = 'E'; · subst hE; decide
  by_cases hF : c = 'F'; · subst hF; decide
  by_cases hG : c = 'G'; · subst hG; decide
  by_cases hH : c = 'H'; · subst hH; decide
  by_cases hI : c = 'I'; · subst hI; decide
  by_cases hJ : c = 'J'; · subst hJ; decide
  by_cases hK : c = 'K'; · subst hK; decide
  by_cases hL : c = 'L'; · subst hL; decide
  by_cases hM : c = 'M'; · subst hM; decide
  by_cases hN : c = 'N'; · subst hN; decide
  by_cases hO : c = 'O'; · subst hO; decide
  by_cases hP : c = 'P'; · subst hP; decide
  by_cases hQ : c = 'Q'; · subst hQ; decide
  by_cases hR : c = 'R'; · subst hR; decide
  by_cases hS : c = 'S'; · subst hS; decide
  by_cases hT : c = 'T'; · subst hT; decide
  by_cases hU : c = 'U'; · subst hU; decide
  by_cases hV : c = 'V'; · subst hV; decide
  by_cases hW : c = 'W'; · subst hW; decide
  by_cases hX : c = 'X'; · subst hX; decide
  by_cases hY : c = 'Y'; · subst hY; decide
  by_cases hZ : c = 'Z'; · subst hZ; decide
  have h : pyToLower c = c := by
    unfold pyToLower
    split <;> simp_all
  rw [h]
  exact h

theorem pyToLower_space : pyToLower ' ' = ' ' := rfl

theorem mem_subNonWord {c : Char} {l : List Char} (h : c ∈ subNonWord l) :
    pyIsWord c = true ∨ pyIsSpace c = true := by
  obtain ⟨x, -, hx⟩ := List.mem_map.mp h
  by_cases hw : pyIsWord x || pyIsSpace x
  · rw [← hx]
    simp only [hw, if_true]
    simpa using hw
  · right
    rw [← hx]
    simp [hw]
    rfl

theorem mem_subNonWord_of_ne_space {c : Char} {l : List Char}
    (h : c ∈ subNonWord l) (hc : c ≠ ' ') : c ∈ l := by
  obtain ⟨x, hxl, hx⟩ := List.mem_map.mp h
  by_cases hw : pyIsWord x || pyIsSpace x
  · simpa [hw, ← hx] using hxl
  · exact absurd (by simp [hw, ← hx]) hc

theorem collapseWs_chars :
    ∀ l, ∀ c ∈ collapseWs l, (c ∈ l ∧ pyIsSpace c = false) ∨ c = ' '
  | [] => by simp [collapseWs]
  | [a] => by
    intro c hc
    cases ha : pyIsSpace a
    · simp [collapseWs, ha] at hc
      refine Or.inl ⟨?_, ?_⟩ <;> simp [hc, ha]
    · simp [collapseWs, ha] at hc
      exact Or.inr hc
  | a :: b :: t => by
    intro c hc
    have lift : ∀ x, x ∈ collapseWs (b :: t) →
        (x ∈ a :: b :: t ∧ pyIsSpace x = false) ∨ x = ' ' := by
      intro x hx
      rcases collapseWs_chars (b :: t) x hx with ⟨hm, hs⟩ | hsp
      · exact Or.inl ⟨List.mem_cons_of_mem a hm, hs⟩
      · exact Or.inr hsp
    cases ha : pyIsSpace a
    · rw [show collapseWs (a :: b :: t) = a :: collapseWs (b :: t) by
        simp [collapseWs, ha]] at hc
      rcases List.mem_cons.mp hc with hca | hc'
      · refine Or.inl ⟨?_, ?_⟩ <;> simp [hca, ha]
      · exact lift c hc'
    · cases hb : pyIsSpace b
      · rw [show collapseWs (a :: b :: t) = ' ' :: collapseWs (b :: t) by
          simp [collapseWs, ha, hb]] at hc
        rcases List.mem_cons.mp hc with rfl | hc'
        · exact Or.inr rfl
        · exact lift c hc'
      · rw [show collapseWs (a :: b :: t) = collapseWs (b :: t) by
          simp [collapseWs, ha, hb]] at hc
        exact lift c hc

theorem collapseWs_head :
    ∀ (c : Char) (cs : List Char),
      ∃ r, collapseWs (c :: cs) = (if pyIsSpace c then ' ' else c) :: r
  | c, [] => by
    by_cases h : pyIsSpace c <;> exact ⟨[], by simp [collapseWs, h]⟩
  | c, c₂ :: cs => by
    by_cases h : pyIsSpace c
    · by_cases h₂ : pyIsSpace c₂
      · obtain ⟨r, hr⟩ := collapseWs_head c₂ cs
        exact ⟨r, by simp [collapseWs, h, h₂, hr]⟩
      · exact ⟨collapseWs (c₂ :: cs), by simp [collapseWs, h, h₂]⟩
    · exact ⟨collapseWs (c₂ :: cs), by simp [collapseWs, h]⟩

theorem head?_dropWhile_false {p : Char → Bool} {l : List Char} {c : Char}
    (h : (l.dropWhile p).head? = some c) : p c = false := by
  have hm := List.head?_dropWhile_not p l
  rw [h] at hm
  exact hm

theorem chain'_dropWhile {α : Type} {R : α → α → Prop} {p : α → Bool} :
    ∀ {l : List α}, List.Chain' R l → List.Chain' R (l.dropWhile p)
  | [], _ => List.chain'_nil
  | a :: t, h => by
    rw [List.dropWhile_cons]
    split
    · exact chain'_dropWhile h.tail
    · exact h

theorem noDoubleWs_symm (x y : Char) (h : noDoubleWs x y) : noDoubleWs y x :=
  fun hp => h ⟨hp.2, hp.1⟩

theorem chain'_stripStr {l : List Char} (h : List.Chain' noDoubleWs l) :
    List.Chain' noDoubleWs (stripStr l) := by
  unfold stripStr
  have h1 := chain'_dropWhile (p := pyIsSpace) h
  have h2 : List.Chain' noDoubleWs (l.dropWhile pyIsSpace).reverse :=
    List.chain'_reverse.mpr (h1.imp fun a b hab => noDoubleWs_symm a b hab)
  have h3 := chain'_dropWhile (p := pyIsSpace) h2
  exact List.chain'_reverse.mpr (h3.imp fun a b hab => noDoubleWs_symm a b hab)

theorem mem_stripStr {c : Char} {l : List Char} (h : c ∈ stripStr l) : c ∈ l := by
  unfold stripStr at h
  rw [List.mem_reverse] at h
  have h1 := (List.dropWhile_sublist _).subset h
  rw [List.mem_reverse] at h1
  exact (List.dropWhile_sublist _).subset h1

theorem stripStr_head {l : List Char} {c : Char}
    (h : (stripStr l).head? = some c) : pyIsSpace c = false := by
  unfold stripStr at h
  rw [List.head?_reverse] at h
  obtain ⟨t, ht⟩ :=
    List.dropWhile_suffix (l := (l.dropWhile pyIsSpace).reverse) pyIsSpace
  have hlast : ((l.dropWhile pyIsSpace).reverse).getLast? = some c := by
    rw [← ht, List.getLast?_append, h]
    rfl
  rw [List.getLast?_reverse] at hlast
  exact head?_dropWhile_false hlast

theorem stripStr_last {l : List Char} {c : Char}
    (h : (stripStr l).getLast? = some c) : pyIsSpace c = false := by
  unfold stripStr at h
  rw [List.getLast?_reverse] at h
  exact head?_dropWhile_false h

theorem collapseWs_chain : ∀ l, List.Chain' noDoubleWs (collapseWs l)
  | [] => List.chain'_nil
  | [a] => by
    cases h : pyIsSpace a <;> simp [collapseWs, h]
  | a :: b :: t => by
    cases ha : pyIsSpace a
    · rw [show collapseWs (a :: b :: t) = a :: collapseWs (b :: t) by
        simp [collapseWs, ha]]
      rw [List.chain'_cons']
      refine ⟨fun y _ => fun hp => by simp [ha] at hp, collapseWs_chain (b :: t)⟩
    · cases hb : pyIsSpace b
      · rw [show collapseWs (a :: b :: t) = ' ' :: collapseWs (b :: t) by
          simp [collapseWs, ha, hb]]
        rw [List.chain'_cons']
        refine ⟨?_, collapseWs_chain (b :: t)⟩
        intro y hy
        obtain ⟨r, hr⟩ := collapseWs_head b t
        rw [hr] at hy
        simp [hb] at hy
        subst hy
        exact fun hp => by simp [hb] at hp
      · rw [show collapseWs (a :: b :: t) = collapseWs (b :: t) by
          simp [collapseWs, ha, hb]]
        exact collapseWs_chain (b :: t)

theorem canon_normalize (t : List Char) : Canon (normalize_title t) := by
  unfold normalize_title
  split
  · exact ⟨by simp, List.chain'_nil, by simp, by simp⟩
  · refine ⟨?_, chain'_stripStr (collapseWs_chain _), fun c hc => stripStr_head hc,
      fun c hc => stripStr_last hc⟩
    intro c hc
    by_cases hsp : c = ' '
    · exact Or.inr hsp
    · left
      have hc1 : c ∈ collapseWs (subNonWord (lowerStr t)) := mem_stripStr hc
      rcases collapseWs_chars _ c hc1 with ⟨hm, hns⟩ | h'
      · have hw : pyIsWord c = true := by
          rcases mem_subNonWord hm with h | h
          · exact h
          · simp [h] at hns
        have hcl : c ∈ lowerStr t := mem_subNonWord_of_ne_space hm hsp
        obtain ⟨x, -, hx⟩ := List.mem_map.mp hcl
        exact ⟨hw, by rw [← hx]; exact pyToLower_idem x, hns⟩
      · exact absurd h' hsp

theorem lowerStr_canon {l : List Char}
    (h : ∀ c ∈ l, (pyIsWord c = true ∧ pyToLower c = c ∧ pyIsSpace c = false) ∨ c = ' ') :
    lowerStr l = l := by
  unfold lowerStr
  have hid : ∀ c ∈ l, pyToLower c = c := by
    intro c hc
    rcases h c hc with ⟨-, h2, -⟩ | h'
    · exact h2
    · rw [h']
      rfl
  rw [List.map_congr_left hid, List.map_id']

theorem subNonWord_canon {l : List Char}
    (h : ∀ c ∈ l, (pyIsWord c = true ∧ pyToLower c = c ∧ pyIsSpace c = false) ∨ c = ' ') :
    subNonWord l = l := by
  unfold subNonWord
  have hid : ∀ c ∈ l, (if pyIsWord c || pyIsSpace c then c else ' ') = c := by
    intro c hc
    rcases h c hc with ⟨h1, -, -⟩ | h'
    · simp [h1]
    · rw [h']
      rfl
  rw [List.map_congr_left hid, List.map_id']

theorem collapseWs_id :
    ∀ l, (∀ c ∈ l, pyIsSpace c = false ∨ c = ' ') →
      List.Chain' noDoubleWs l → collapseWs l = l
  | [], _, _ => rfl
  | [a], h, _ => by
    cases ha : pyIsSpace a
    · simp [collapseWs, ha]
    · rcases h a (by simp) with h' | h'
      · simp [ha] at h'
      · simp [collapseWs, ha, h']
  | a :: b :: t, h, hc => by
    obtain ⟨hab, htl⟩ := List.chain'_cons.mp hc
    have hrec := collapseWs_id (b :: t)
      (fun c hc' => h c (List.mem_cons_of_mem a hc')) htl
    cases ha : pyIsSpace a
    · simp [collapseWs, ha, hrec]
    · have ha' : a = ' ' := by
        rcases h a (by simp) with h' | h'
        · simp [ha] at h'
        · exact h'
      cases hb : pyIsSpace b
      · simp [collapseWs, ha, hb, hrec, ha']
      · exact absurd ⟨ha, hb⟩ hab

theorem dropWhile_id_of_head {p : Char → Bool} :
    ∀ {l : List Char}, (∀ c, l.head? = some c → p c = false) → l.dropWhile p = l
  | [], _ => rfl
  | a :: t, h => by
    have := h a rfl
    simp [List.dropWhile_cons, this]

theorem stripStr_id {l : List Char}
    (hh : ∀ c, l.head? = some c → pyIsSpace c = false)
    (hl : ∀ c, l.getLast? = some c → pyIsSpace c = false) : stripStr l = l := by
  unfold stripStr
  rw [dropWhile_id_of_head hh]
  rw [dropWhile_id_of_head (fun c hc => by
    rw [List.head?_reverse] at hc
    exact hl c hc)]
  exact List.reverse_reverse l

theorem normalize_canon_id {l : List Char} (h : Canon l) : normalize_title l = l := by
  obtain ⟨hchars, hchain, hh, hl⟩ := h
  unfold normalize_title
  split
  · next hnil => exact hnil.symm
  · rw [lowerStr_canon hchars, subNonWord_canon hchars,
      collapseWs_id l (fun c hc => (hchars c hc).imp (fun h' => h'.2.2) id) hchain,
      stripStr_id hh hl]

/-- Claim C7: normalization is idempotent — for every string `x`,
`normalize_title (normalize_title x) = normalize_title x`. -/
theorem c7_normalize_idempotent (x : List Char) :
    normalize_title (normalize_title x) = normalize_title x :=
  normalize_canon_id (canon_normalize x)

/-- Claim C5 counterexample: `normalize_title` keeps underscores (Python
`\w` matches `_`), so on input `"a_b"` the output contains a character
that is neither alphanumeric nor a space, contradicting the claim. -/
theorem c5_normalize_keeps_underscore_cex :
    '_' ∈ normalize_title ['a', '_', 'b'] ∧ '_'.isAlphanum = false ∧ '_' ≠ ' ' := by
  decide

/-- Claim C5 (amended): `normalize_title` replaces every character that is
not alphanumeric, not an underscore and not whitespace by a space, so its
output consists only of alphanumeric characters, underscores, and single
(never adjacent) spaces. -/
theorem c5_normalize_chars (x : List Char) :
    (∀ c ∈ normalize_title x, c.isAlphanum = true ∨ c = '_' ∨ c = ' ') ∧
    List.Chain' (fun a b => ¬(a = ' ' ∧ b = ' ')) (normalize_title x) := by
  obtain ⟨hchars, hchain, -, -⟩ := canon_normalize x
  constructor
  · intro c hc
    rcases hchars c hc with ⟨hw, -, -⟩ | h'
    · simp only [pyIsWord, Bool.or_eq_true] at hw
      rcases hw with h | h
      · exact Or.inl h
      · exact Or.inr (Or.inl (by simpa using h))
    · exact Or.inr (Or.inr h')
  · exact hchain.imp fun a b hab hp => hab ⟨by rw [hp.1]; rfl, by rw [hp.2]; rfl⟩

/-! ### The similarity matcher pipeline (claims C2, C6, C8, C10) -/

theorem mem_find_similar_titles {fa fb : List (String × Option (List Char))}
    {thr : ℚ} {c : MatchCand} :
    c ∈ find_similar_titles fa fb thr ↔ c ∈ collectCandidates fa fb thr :=
  (List.perm_insertionSort simDesc _).mem_iff

theorem mem_compareRow_foldl (pb : String) (tb : List Char) (thr : ℚ) :
    ∀ (l : List (String × TitleInfo)) (init : List MatchCand) (c : MatchCand),
      (c ∈ l.foldl (fun acc e =>
        let sim := match_ratio e.2.normalized (normalize_title tb)
        if thr ≤ sim then acc ++ [⟨e.1, pb, e.2.original, tb, sim⟩] else acc) init ↔
      (c ∈ init ∨ ∃ e ∈ l, thr ≤ match_ratio e.2.normalized (normalize_title tb) ∧
        c = ⟨e.1, pb, e.2.original, tb, match_ratio e.2.normalized (normalize_title tb)⟩))
  | [], init, c => by simp
  | e :: t, init, c => by
    rw [List.foldl_cons, mem_compareRow_foldl pb tb thr t _ c]
    by_cases h : thr ≤ match_ratio e.2.normalized (normalize_title tb)
    · simp only [h, if_true, List.mem_append, List.mem_cons, List.not_mem_nil,
        or_false]
      constructor
      · rintro (⟨h1 | h1⟩ | ⟨x, hx1, hx2, hx3⟩)
        · exact Or.inl h1
        · exact Or.inr ⟨e, Or.inl rfl, h, h1⟩
        · exact Or.inr ⟨x, Or.inr hx1, hx2, hx3⟩
      · rintro (h1 | ⟨x, rfl | hx1, hx2, hx3⟩)
        · exact Or.inl (Or.inl h1)
        · exact Or.inl (Or.inr hx3)
        · exact Or.inr ⟨x, hx1, hx2, hx3⟩
    · simp only [h, if_false, List.mem_cons]
      constructor
      · rintro (h1 | ⟨x, hx1, hx2, hx3⟩)
        · exact Or.inl h1
        · exact Or.inr ⟨x, Or.inr hx1, hx2, hx3⟩
      · rintro (h1 | ⟨x, rfl | hx1, hx2, hx3⟩)
        · exact Or.inl h1
        · exact absurd hx2 h
        · exact Or.inr ⟨x, hx1, hx2, hx3⟩

theorem mem_compareRow {idxA : List (String × TitleInfo)} {pb : String}
    {tb : List Char} {thr : ℚ} {c : MatchCand} :
    c ∈ compareRow idxA pb tb thr ↔
      ∃ e ∈ idxA, thr ≤ match_ratio e.2.normalized (normalize_title tb) ∧
        c = ⟨e.1, pb, e.2.original, tb,
          match_ratio e.2.normalized (normalize_title tb)⟩ := by
  unfold compareRow
  rw [mem_compareRow_foldl pb tb thr idxA [] c]
  simp

theorem mem_buildIndexA_foldl :
    ∀ (l : List (String × Option (List Char))) (init : List (String × TitleInfo))
      (e : String × TitleInfo),
      (e ∈ l.foldl (fun acc f =>
        match f.2 with
        | none => acc
        | some t => if t = [] then acc else
            acc ++ [(f.1, ⟨t, normalize_title t⟩)]) init ↔
      (e ∈ init ∨ ∃ p t, (p, some t) ∈ l ∧ t ≠ [] ∧ e = (p, ⟨t, normalize_title t⟩)))
  | [], init, e => by simp
  | f :: l, init, e => by
    rw [List.foldl_cons]
    rcases f with ⟨p₀, t₀⟩
    rcases t₀ with _ | t₀
    · dsimp only
      rw [mem_buildIndexA_foldl l init e]
      simp only [List.mem_cons, Prod.mk.injEq]
      constructor
      · rintro (h | ⟨p, t, ht, hne, he⟩)
        · exact Or.inl h
        · exact Or.inr ⟨p, t, Or.inr ht, hne, he⟩
      · rintro (h | ⟨p, t, ⟨hp, ht⟩ | ht, hne, he⟩)
        · exact Or.inl h
        · cases ht
        · exact Or.inr ⟨p, t, ht, hne, he⟩
    · dsimp only
      by_cases h0 : t₀ = []
      · rw [if_pos h0, mem_buildIndexA_foldl l init e]
        simp only [List.mem_cons, Prod.mk.injEq]
        constructor
        · rintro (h | ⟨p, t, ht, hne, he⟩)
          · exact Or.inl h
          · exact Or.inr ⟨p, t, Or.inr ht, hne, he⟩
        · rintro (h | ⟨p, t, ⟨hp, ht⟩ | ht, hne, he⟩)
          · exact Or.inl h
          · exact absurd (h0 ▸ Option.some.inj ht) hne
          · exact Or.inr ⟨p, t, ht, hne, he⟩
      · rw [if_neg h0, mem_buildIndexA_foldl l _ e]
        simp only [List.mem_append, List.mem_cons, List.not_mem_nil, or_false,
          Prod.mk.injEq]
        constructor
        · rintro (⟨h | h⟩ | ⟨p, t, ht, hne, he⟩)
          · exact Or.inl h
          · exact Or.inr ⟨p₀, t₀, Or.inl ⟨rfl, rfl⟩, h0, h⟩
          · exact Or.inr ⟨p, t, Or.inr ht, hne, he⟩
        · rintro (h | ⟨p, t, ⟨hp, ht⟩ | ht, hne, he⟩)
          · exact Or.inl (Or.inl h)
          · exact Or.inl (Or.inr (by rw [he, hp, Option.some.inj ht]))
          · exact Or.inr ⟨p, t, ht, hne, he⟩

theorem mem_buildIndexA {filesA : List (String × Option (List Char))}
    {e : String × TitleInfo} :
    e ∈ buildIndexA filesA ↔
      ∃ p t, (p, some t) ∈ filesA ∧ t ≠ [] ∧ e = (p, ⟨t, normalize_title t⟩) := by
  unfold buildIndexA
  rw [mem_buildIndexA_foldl filesA [] e]
  simp

theorem mem_collect_foldl (idxA : List (String × TitleInfo)) (thr : ℚ) :
    ∀ (l : List (String × Option (List Char))) (init : List MatchCand) (c : MatchCand),
      (c ∈ l.foldl (fun acc f =>
        match f.2 with
        | none => acc
        | some tb => if tb = [] then acc else
            acc ++ compareRow idxA f.1 tb thr) init ↔
      (c ∈ init ∨ ∃ p tb, (p, some tb) ∈ l ∧ tb ≠ [] ∧ c ∈ compareRow idxA p tb thr))
  | [], init, c => by simp
  | f :: l, init, c => by
    rw [List.foldl_cons]
    rcases f with ⟨p₀, t₀⟩
    rcases t₀ with _ | t₀
    · dsimp only
      rw [mem_collect_foldl idxA thr l init c]
      simp only [List.mem_cons, Prod.mk.injEq]
      constructor
      · rintro (h | ⟨p, tb, ht, hne, he⟩)
        · exact Or.inl h
        · exact Or.inr ⟨p, tb, Or.inr ht, hne, he⟩
      · rintro (h | ⟨p, tb, ⟨hp, ht⟩ | ht, hne, he⟩)
        · exact Or.inl h
        · cases ht
        · exact Or.inr ⟨p, tb, ht, hne, he⟩
    · dsimp only
      by_cases h0 : t₀ = []
      · rw [if_pos h0, mem_collect_foldl idxA thr l init c]
        simp only [List.mem_cons, Prod.mk.injEq]
        constructor
        · rintro (h | ⟨p, tb, ht, hne, he⟩)
          · exact Or.inl h
          · exact Or.inr ⟨p, tb, Or.inr ht, hne, he⟩
        · rintro (h | ⟨p, tb, ⟨hp, ht⟩ | ht, hne, he⟩)
          · exact Or.inl h
          · exact absurd (h0 ▸ Option.some.inj ht) hne
          · exact Or.inr ⟨p, tb, ht, hne, he⟩
      · rw [if_neg h0, mem_collect_foldl idxA thr l _ c]
        simp only [List.mem_append, List.mem_cons, Prod.mk.injEq]
        constructor
        · rintro (⟨h | h⟩ | ⟨p, tb, ht, hne, he⟩)
          · exact Or.inl h
          · exact Or.inr ⟨p₀, t₀, Or.inl ⟨rfl, rfl⟩, h0, h⟩
          · exact Or.inr ⟨p, tb, Or.inr ht, hne, he⟩
        · rintro (h | ⟨p, tb, ⟨hp, ht⟩ | ht, hne, he⟩)
          · exact Or.inl (Or.inl h)
          · exact Or.inl (Or.inr (by rw [← hp, ← Option.some.inj ht]; exact he))
          · exact Or.inr ⟨p, tb, ht, hne, he⟩

theorem mem_collectCandidates {fa fb : List (String × Option (List Char))}
    {thr : ℚ} {c : MatchCand} :
    c ∈ collectCandidates fa fb thr ↔
      ∃ p tb, (p, some tb) ∈ fb ∧ tb ≠ [] ∧
        c ∈ compareRow (buildIndexA fa) p tb thr := by
  unfold collectCandidates
  rw [mem_collect_foldl (buildIndexA fa) thr fb [] c]
  simp

theorem filter_orderedInsert (q : ℚ) (x : MatchCand) :
    ∀ l : List MatchCand,
      (List.orderedInsert simDesc x l).filter (fun c => decide (c.similarity = q)) =
        if x.similarity = q then
          x :: l.filter (fun c => decide (c.similarity = q))
        else l.filter (fun c => decide (c.similarity = q))
  | [] => by
    by_cases h : x.similarity = q <;> simp [List.orderedInsert, List.filter, h]
  | y :: t => by
    rw [List.orderedInsert]
    by_cases hxy : simDesc x y
    · rw [if_pos hxy]
      by_cases h : x.similarity = q <;>
        simp [List.filter_cons, h]
    · rw [if_neg hxy]
      rw [List.filter_cons, List.filter_cons, filter_orderedInsert q x t]
      by_cases h : x.similarity = q
      · have hy : ¬ y.similarity = q := by
          intro hq
          exact hxy (by unfold simDesc; rw [hq, h])
        simp [h, hy]
      · by_cases hy : y.similarity = q <;> simp [h, hy]

theorem filter_insertionSort (q : ℚ) :
    ∀ l : List MatchCand,
      (List.insertionSort simDesc l).filter (fun c => decide (c.similarity = q)) =
        l.filter (fun c => decide (c.similarity = q))
  | [] => rfl
  | x :: t => by
    rw [show List.insertionSort simDesc (x :: t)
        = List.orderedInsert simDesc x (List.insertionSort simDesc t) from rfl,
      filter_orderedInsert q x _, filter_insertionSort q t, List.filter_cons]
    by_cases h : x.similarity = q <;> simp [h]

/-- Claim C8: the match report of `find_similar_titles` is sorted by
similarity in descending order — every candidate's similarity is at least
that of every later candidate. -/
theorem c8_report_sorted_desc (filesA filesB : List (String × Option (List Char)))
    (thr : ℚ) :
    List.Pairwise (fun x y => y.similarity ≤ x.similarity)
      (find_similar_titles filesA filesB thr) := by
  haveI : IsTotal MatchCand simDesc := ⟨fun x y => le_total y.similarity x.similarity⟩
  haveI : IsTrans MatchCand simDesc := ⟨fun _ _ _ h1 h2 => le_trans h2 h1⟩
  exact List.sorted_insertionSort simDesc (collectCandidates filesA filesB thr)

/-- Claim C10: for every similarity value `q`, the subsequence of reported
candidates with that similarity equals the corresponding subsequence of the
discovery-ordered candidate list (outer iteration over folder B, inner over
the folder-A index): the final descending sort is stable on ties. -/
theorem c10_equal_similarity_stable (filesA filesB : List (String × Option (List Char)))
    (thr q : ℚ) :
    (find_similar_titles filesA filesB thr).filter (fun c => decide (c.similarity = q)) =
      (collectCandidates filesA filesB thr).filter (fun c => decide (c.similarity = q)) :=
  filter_insertionSort q (collectCandidates filesA filesB thr)

/-- Claim C6: raising the threshold shrinks the report — for `t₁ < t₂`
every `(path_a, path_b)` pair reported at `t₂` is also reported at `t₁`. -/
theorem c6_threshold_monotone (fa fb : List (String × Option (List Char)))
    (t₁ t₂ : ℚ) (h : t₁ < t₂) :
    pairsOf (find_similar_titles fa fb t₂) ⊆ pairsOf (find_similar_titles fa fb t₁) := by
  intro p hp
  unfold pairsOf at hp ⊢
  obtain ⟨c, hc, hcp⟩ := List.mem_map.mp hp
  refine List.mem_map.mpr ⟨c, ?_, hcp⟩
  rw [mem_find_similar_titles, mem_collectCandidates] at hc ⊢
  obtain ⟨pb, tb, hmem, hne, hcr⟩ := hc
  refine ⟨pb, tb, hmem, hne, ?_⟩
  rw [mem_compareRow] at hcr ⊢
  obtain ⟨e, he, hsim, hceq⟩ := hcr
  exact ⟨e, he, le_trans (le_of_lt h) hsim, hceq⟩

theorem c6_threshold_monotone_witness :
    mkRat 1 2 < mkRat 3 4 ∧
      pairsOf (find_similar_titles [("a", some ['a', 'b'])] [("b", some ['a', 'b'])]
          (mkRat 3 4)) ⊆
        pairsOf (find_similar_titles [("a", some ['a', 'b'])] [("b", some ['a', 'b'])]
          (mkRat 1 2)) :=
  ⟨by decide, c6_threshold_monotone _ _ _ _ (by decide)⟩

/-- Claim C2 counterexample: two documents whose raw titles are pure
punctuation have empty normalized titles, yet they are compared and
reported (the ratio of two empty strings is 1.0), so entries with empty
normalized titles are not skipped. -/
theorem c2_empty_normalized_reported_cex :
    normalize_title ['!', '!', '!'] = [] ∧
      find_similar_titles [("a", some ['!', '!', '!'])]
        [("b", some ['?', '?', '?'])] (mkRat 8 10) ≠ [] := by
  constructor
  · decide
  · decide

/-- Claim C2 (amended): the matcher's skipping is decided by the raw
extracted title only. Soundness: every reported candidate carries non-empty
raw titles coming from the two input enumerations (so an absent title never
appears in a candidate). Completeness: every pair of entries with truthy
raw titles whose normalized titles reach the threshold is reported — even
when the normalized titles are empty. -/
theorem c2_matcher_raw_title_filter (fa fb : List (String × Option (List Char)))
    (thr : ℚ) :
    (∀ c ∈ find_similar_titles fa fb thr,
      c.title_a ≠ [] ∧ c.title_b ≠ [] ∧
        (c.path_a, some c.title_a) ∈ fa ∧ (c.path_b, some c.title_b) ∈ fb) ∧
    (∀ pa ta pb tb, (pa, some ta) ∈ fa → ta ≠ [] → (pb, some tb) ∈ fb → tb ≠ [] →
      thr ≤ match_ratio (normalize_title ta) (normalize_title tb) →
      (⟨pa, pb, ta, tb, match_ratio (normalize_title ta) (normalize_title tb)⟩ :
        MatchCand) ∈ find_similar_titles fa fb thr) := by
  constructor
  · intro c hc
    rw [mem_find_similar_titles, mem_collectCandidates] at hc
    obtain ⟨pb, tb, hmemB, hneB, hcr⟩ := hc
    rw [mem_compareRow] at hcr
    obtain ⟨e, he, hsim, hceq⟩ := hcr
    rw [mem_buildIndexA] at he
    obtain ⟨pa, ta, hmemA, hneA, heq⟩ := he
    subst hceq
    subst heq
    exact ⟨hneA, hneB, hmemA, hmemB⟩
  · intro pa ta pb tb hA hneA hB hneB hsim
    rw [mem_find_similar_titles, mem_collectCandidates]
    refine ⟨pb, tb, hB, hneB, ?_⟩
    rw [mem_compareRow]
    exact ⟨(pa, ⟨ta, normalize_title ta⟩),
      mem_buildIndexA.mpr ⟨pa, ta, hA, hneA, rfl⟩, hsim, rfl⟩

theorem c2_matcher_raw_title_filter_witness :
    (⟨"a", "b", ['a', 'b'], ['a', 'b'],
      match_ratio (normalize_title ['a', 'b']) (normalize_title ['a', 'b'])⟩ :
      MatchCand) ∈
      find_similar_titles [("a", some ['a', 'b'])] [("b", some ['a', 'b'])]
        (mkRat 1 2) :=
  (c2_matcher_raw_title_filter [("a", some ['a', 'b'])] [("b", some ['a', 'b'])]
    (mkRat 1 2)).2 "a" ['a', 'b'] "b" ['a', 'b'] (by decide) (by decide) (by decide)
    (by decide) (by decide)

/-! ### The title extractor scan (claims C4 and C9) -/

theorem scanLoop_skip {line : List Char} (hs : survives line = false) :
    ∀ (k : Nat) (r : List (Nat × List Char)) (acc : List (List Char)),
      scanLoop ((k, line) :: r) acc = scanLoop r acc := by
  intro k r acc
  unfold survives at hs
  rw [scanLoop]
  by_cases h1 : skipSearch line
  · rw [if_pos h1]
  · rw [if_neg h1]
    by_cases h2 : line.length < 10
    · rw [if_pos h2]
    · rw [if_neg h2]
      by_cases h3 : skipMatch line
      · rw [if_pos h3]
      · exfalso
        simp [h1, h3, Nat.not_lt.mp h2, Nat.le_of_not_lt] at hs
        omega

theorem scanLoop_keep {line : List Char} (hs : survives line = true)
    (k : Nat) (r : List (Nat × List Char)) (acc : List (List Char)) :
    scanLoop ((k, line) :: r) acc =
      if 2 ≤ k then acc ++ [line] else scanLoop r (acc ++ [line]) := by
  unfold survives at hs
  simp only [Bool.and_eq_true, Bool.not_eq_true'] at hs
  obtain ⟨⟨h1, h2⟩, h3⟩ := hs
  rw [scanLoop, if_neg (by simp [h1]), if_neg (by simp at h2 ⊢; omega),
    if_neg (by simp [h3])]
  have hlen : 0 < (acc ++ [line]).length := by simp
  by_cases hk : 2 ≤ k
  · rw [if_pos ⟨hk, hlen⟩, if_pos hk]
  · rw [if_neg (fun hco => hk hco.1), if_neg hk]

theorem find?_enumFrom_ge {α : Type} (p : Nat × α → Bool) :
    ∀ (l : List α) (k i : Nat) (x : α),
      (List.enumFrom k l).find? p = some (i, x) → k ≤ i
  | [], k, i, x, h => by simp [List.enumFrom] at h
  | a :: t, k, i, x, h => by
    rw [List.enumFrom_cons] at h
    by_cases hp : p (k, a)
    · rw [List.find?_cons_of_pos _ hp] at h
      obtain ⟨h1, -⟩ := Prod.mk.injEq .. ▸ Option.some.inj h
      omega
    · rw [List.find?_cons_of_neg _ hp] at h
      have := find?_enumFrom_ge p t (k + 1) i x h
      omega

theorem scanLoop_eq :
    ∀ (l : List (List Char)) (k : Nat) (acc : List (List Char)),
      scanLoop (List.enumFrom k l) acc =
        match (List.enumFrom k l).find? (fun p => decide (2 ≤ p.1) && survives p.2) with
        | some (i, _) => acc ++ (l.take (i + 1 - k)).filter survives
        | none => acc ++ l.filter survives
  | [], k, acc => by simp [List.enumFrom, scanLoop]
  | line :: rest, k, acc => by
    rw [List.enumFrom_cons]
    cases hs : survives line
    · rw [scanLoop_skip hs k _ acc, scanLoop_eq rest (k + 1) acc]
      rw [List.find?_cons_of_neg _ (by simp [hs])]
      cases hfind : (List.enumFrom (k + 1) rest).find?
          (fun p => decide (2 ≤ p.1) && survives p.2) with
      | none => simp [List.filter_cons, hs]
      | some p =>
        rcases p with ⟨i, x⟩
        have hki : k + 1 ≤ i := find?_enumFrom_ge _ rest (k + 1) i x hfind
        have htake : (line :: rest).take (i + 1 - k) = line :: rest.take (i - k) := by
          have : i + 1 - k = (i - k) + 1 := by omega
          rw [this, List.take_succ_cons]
        have : i + 1 - (k + 1) = i - k := by omega
        simp [htake, List.filter_cons, hs, this]
    · by_cases hk : 2 ≤ k
      · rw [scanLoop_keep hs k _ acc, if_pos hk]
        rw [List.find?_cons_of_pos _ (by simp [hs, hk])]
        have : k + 1 - k = 1 := by omega
        simp [this, List.filter_cons, hs]
      · rw [scanLoop_keep hs k _ acc, if_neg hk, scanLoop_eq rest (k + 1) (acc ++ [line])]
        rw [List.find?_cons_of_neg _ (by simp [hk])]
        cases hfind : (List.enumFrom (k + 1) rest).find?
            (fun p => decide (2 ≤ p.1) && survives p.2) with
        | none => simp [List.filter_cons, hs]
        | some p =>
          rcases p with ⟨i, x⟩
          have hki : k + 1 ≤ i := find?_enumFrom_ge _ rest (k + 1) i x hfind
          have htake : (line :: rest).take (i + 1 - k) = line :: rest.take (i - k) := by
            have : i + 1 - k = (i - k) + 1 := by omega
            rw [this, List.take_succ_cons]
          have : i + 1 - (k + 1) = i - k := by omega
          simp [htake, List.filter_cons, hs, this]

/-- Claim C4 counterexample: with a surviving first line, two discarded
short lines, and a surviving fourth line, the source's scan does not stop
at index 2 (the discard `continue`s skip the stop check), and instead also
collects the line at index 3 — whereas the claimed stop rule (modelled by
`scanClaimC4`) would stop before inspecting index 3 and return only the
first line. -/
theorem c4_scan_stop_cex :
    potential_title_lines
        [("this is a long title line".toList), ("x".toList), ("y".toList),
          ("another long line continuing".toList)] =
      [("this is a long title line".toList), ("another long line continuing".toList)] ∧
    scanClaimC4 0 []
        [("this is a long title line".toList), ("x".toList), ("y".toList),
          ("another long line continuing".toList)] =
      [("this is a long title line".toList)] ∧
    [("this is a long title line".toList), ("another long line continuing".toList)] ≠
      [("this is a long title line".toList)] := by
  refine ⟨by decide, by decide, by decide⟩

/-- Claim C4 (amended): the stop check runs only after a line survives the
discard rules and is appended (at which point the candidate list is
necessarily non-empty), so the scan processes lines up to and including
the first surviving line whose index is at least 2; discarded lines never
trigger the stop, and if no surviving line has index ≥ 2 all ten lines are
scanned. -/
theorem c4_scan_characterization (lines : List (List Char)) :
    potential_title_lines lines =
      match firstStop lines with
      | some (i, _) => ((lines.take 10).take (i + 1)).filter survives
      | none => (lines.take 10).filter survives := by
  unfold potential_title_lines firstStop
  rw [List.enum_eq_enumFrom, scanLoop_eq (lines.take 10) 0 []]
  cases hfind : (List.enumFrom 0 (lines.take 10)).find?
      (fun p => decide (2 ≤ p.1) && survives p.2) with
  | none => simp
  | some p => rcases p with ⟨i, x⟩; simp

/-- Claim C9 counterexample: on the non-empty page text `"abc"` all lines
are discarded (too short), the text is at most 100 characters long, and
the extractor returns `some ""` — the empty string, a string value — not
absent. -/
theorem c9_returns_empty_string_cex :
    extract_title_from_pdf ("abc".toList) = some [] ∧
      (some ([] : List Char) ≠ (none : Option (List Char))) := by
  refine ⟨by decide, by decide⟩

/-- Claim C9 (amended): when the page text is non-empty, no candidate line
survives, and the text does not exceed 100 characters, the extractor
returns `some ""` — the empty string rather than `None`; the empty string
is falsy in Python, so callers treat it like an absent title. -/
theorem c9_no_candidates_short_text_empty (t : List Char) (hne : t ≠ [])
    (hnc : potential_title_lines
      (((splitLines t).map stripStr).filter (fun l => !l.isEmpty)) = [])
    (hlen : t.length ≤ 100) :
    extract_title_from_pdf t = some [] := by
  unfold extract_title_from_pdf
  rw [if_neg (by simpa [List.isEmpty_iff] using hne)]
  dsimp only
  rw [hnc]
  have h100 : ¬(100 < t.length) := not_lt.mpr hlen
  simp [joinSpace, h100, List.intercalate]

theorem c9_no_candidates_short_text_empty_witness :
    ("abc".toList ≠ []) ∧
      potential_title_lines
        (((splitLines ("abc".toList)).map stripStr).filter (fun l => !l.isEmpty)) = [] ∧
      ("abc".toList).length ≤ 100 ∧
      extract_title_from_pdf ("abc".toList) = some [] :=
  ⟨by decide, by decide, by decide,
    c9_no_candidates_short_text_empty ("abc".toList) (by decide) (by decide) (by decide)⟩

/-! ### `find_longest_match`: the general window/character specification -/

theorem bj_mem {b : List Char} {c : Char} {j : Nat} (h : j ∈ bj b c) :
    j < b.length ∧ b.getD j ' ' = c := by
  unfold bj at h
  split at h
  · simp at h
  · obtain ⟨hr, hc⟩ := List.mem_filter.mp h
    exact ⟨List.mem_range.mp hr, by simpa using hc⟩

theorem bestInv_mono {a b : List Char} {alo blo hi hi' bhi : Nat} {bst : Best}
    (h : BestInv a b alo blo hi bhi bst) (hh : hi ≤ hi') :
    BestInv a b alo blo hi' bhi bst :=
  ⟨h.1, h.2.1, le_trans h.2.2.1 hh, h.2.2.2.1, h.2.2.2.2⟩

theorem chainLen_spec {a b : List Char} {alo blo bhi i : Nat} {o : Nat → Nat}
    (hi : alo ≤ i) (ho : OInv a b alo blo bhi i o) {j : Nat}
    (hjc : b.getD j ' ' = a.getD i ' ') (hjlo : blo ≤ j) (hjhi : j < bhi) :
    alo + chainLen o j ≤ i + 1 ∧ blo + chainLen o j ≤ j + 1 ∧
      ∀ t, t < chainLen o j → a.getD (i - t) ' ' = b.getD (j - t) ' ' := by
  unfold chainLen
  by_cases hj0 : j = 0
  · subst hj0
    rw [if_pos rfl]
    refine ⟨by omega, by omega, ?_⟩
    intro t ht
    have : t = 0 := by omega
    subst this
    simpa using hjc.symm
  · rw [if_neg hj0]
    by_cases ho0 : 1 ≤ o (j - 1)
    · obtain ⟨h1, h2, h3, h4, h5⟩ := ho (j - 1) ho0
      refine ⟨by omega, by omega, ?_⟩
      intro t ht
      by_cases ht0 : t = 0
      · subst ht0
        simpa using hjc.symm
      · have hti : i - t = i - 1 - (t - 1) := by omega
        have htj : j - t = j - 1 - (t - 1) := by omega
        rw [hti, htj]
        exact h5 (t - 1) (by omega)
    · have : o (j - 1) = 0 := by omega
      rw [this]
      refine ⟨by omega, by omega, ?_⟩
      intro t ht
      have : t = 0 := by omega
      subst this
      simpa using hjc.symm

theorem innerLoop_inv {a b : List Char} {alo blo bhi i : Nat} {o : Nat → Nat}
    (hi : alo ≤ i) (hia : i + 1 ≤ a.length)
    (ho : OInv a b alo blo bhi i o) :
    ∀ (js : List Nat) (nj : Nat → Nat) (bst : Best),
      (∀ j ∈ js, j < b.length ∧ b.getD j ' ' = a.getD i ' ') →
      OInv a b alo blo bhi (i + 1) nj →
      BestInv a b alo blo (i + 1) bhi bst →
      OInv a b alo blo bhi (i + 1) (innerLoop blo bhi i o js nj bst).1 ∧
        BestInv a b alo blo (i + 1) bhi (innerLoop blo bhi i o js nj bst).2
  | [], nj, bst, _, hnj, hbst => ⟨hnj, hbst⟩
  | j :: js, nj, bst, hjs, hnj, hbst => by
    rw [innerLoop]
    by_cases hlo : j < blo
    · rw [if_pos hlo]
      exact innerLoop_inv hi hia ho js nj bst
        (fun x hx => hjs x (List.mem_cons_of_mem j hx)) hnj hbst
    · rw [if_neg hlo]
      by_cases hhi : bhi ≤ j
      · rw [if_pos hhi]
        exact ⟨hnj, hbst⟩
      · rw [if_neg hhi]
        obtain ⟨hjb, hjc⟩ := hjs j (List.mem_cons_self j js)
        obtain ⟨hc1, hc2, hc3⟩ := chainLen_spec hi ho hjc (by omega) (by omega)
        refine innerLoop_inv hi hia ho js _ _
          (fun x hx => hjs x (List.mem_cons_of_mem j hx)) ?_ ?_
        · intro x hx
          by_cases hxj : x = j
          · subst hxj
            simp only [eq_self_iff_true, if_true] at hx ⊢
            refine ⟨by omega, by omega, by omega, by omega, ?_⟩
            intro t ht
            have : i + 1 - 1 - t = i - t := by omega
            rw [this]
            exact hc3 t ht
          · simp only [if_neg hxj] at hx ⊢
            exact hnj x hx
        · by_cases hrec : bst.bestsize < chainLen o j
          · rw [if_pos hrec]
            refine ⟨by simp; omega, by simp; omega, by simp; omega, by simp; omega, ?_⟩
            intro t ht
            simp only at ht ⊢
            have hti : i + 1 - chainLen o j + t = i - (chainLen o j - 1 - t) := by omega
            have htj : j + 1 - chainLen o j + t = j - (chainLen o j - 1 - t) := by omega
            rw [hti, htj]
            exact hc3 (chainLen o j - 1 - t) (by omega)
          · rw [if_neg hrec]
            exact hbst

theorem outerLoop_inv {a b : List Char} {alo blo bhi : Nat} :
    ∀ (n i : Nat) (o : Nat → Nat) (bst : Best),
      alo ≤ i → i + n ≤ a.length →
      OInv a b alo blo bhi i o →
      BestInv a b alo blo i bhi bst →
      BestInv a b alo blo (i + n) bhi
        (outerLoop a b blo bhi (List.range' i n) o bst)
  | 0, i, o, bst, _, _, _, hbst => by
    rw [show List.range' i 0 = [] from rfl, outerLoop]
    simpa using hbst
  | n + 1, i, o, bst, hi, hlen, ho, hbst => by
    rw [List.range'_succ, outerLoop]
    have hrow := innerLoop_inv (b := b) hi (by omega) ho
      (bj b (a.getD i ' ')) (fun _ => 0) bst
      (fun j hj => bj_mem hj)
      (fun j hj => by simp at hj)
      (bestInv_mono hbst (by omega))
    have := outerLoop_inv n (i + 1) _ _ (by omega) (by omega) hrow.1 hrow.2
    have harith : i + 1 + n = i + (n + 1) := by omega
    rw [harith] at this
    exact this

theorem extendLeft_inv {a b : List Char} {alo blo hi bhi : Nat} :
    ∀ (fuel : Nat) (bst : Best), BestInv a b alo blo hi bhi bst →
      BestInv a b alo blo hi bhi (extendLeft a b alo blo fuel bst)
  | 0, bst, h => h
  | fuel + 1, bst, h => by
    rw [extendLeft]
    split
    · next hg =>
      obtain ⟨hg1, hg2, hg3⟩ := hg
      obtain ⟨h1, h2, h3, h4, h5⟩ := h
      refine extendLeft_inv fuel _ ⟨by simp; omega, by simp; omega, by simp; omega,
        by simp; omega, ?_⟩
      intro t ht
      simp only at ht ⊢
      by_cases ht0 : t = 0
      · subst ht0
        simpa using hg3
      · have hti : bst.besti - 1 + t = bst.besti + (t - 1) := by omega
        have htj : bst.bestj - 1 + t = bst.bestj + (t - 1) := by omega
        rw [hti, htj]
        exact h5 (t - 1) (by omega)
    · exact h

theorem extendRight_inv {a b : List Char} {alo blo ahi bhi : Nat} :
    ∀ (fuel : Nat) (bst : Best), BestInv a b alo blo ahi bhi bst →
      BestInv a b alo blo ahi bhi (extendRight a b ahi bhi fuel bst)
  | 0, bst, h => h
  | fuel + 1, bst, h => by
    rw [extendRight]
    split
    · next hg =>
      obtain ⟨hg1, hg2, hg3⟩ := hg
      obtain ⟨h1, h2, h3, h4, h5⟩ := h
      refine extendRight_inv fuel _ ⟨by simp; omega, by simp; omega, by simp; omega,
        by simp; omega, ?_⟩
      intro t ht
      simp only at ht ⊢
      by_cases htb : t = bst.bestsize
      · subst htb
        exact hg3
      · exact h5 t (by omega)
    · exact h

theorem find_longest_match_spec (a b : List Char) (alo ahi blo bhi : Nat)
    (ha : alo ≤ ahi) (hb : blo ≤ bhi) (hal : ahi ≤ a.length) :
    BestInv a b alo blo ahi bhi (find_longest_match a b alo ahi blo bhi) := by
  unfold find_longest_match
  apply extendRight_inv
  apply extendLeft_inv
  have h0 : BestInv a b alo blo alo bhi ⟨alo, blo, 0⟩ :=
    ⟨le_refl alo, le_refl blo, by simp, by simpa using hb,
      fun t ht => absurd ht (by simp)⟩
  have := @outerLoop_inv a b alo blo bhi (ahi - alo) alo (fun _ => 0)
    ⟨alo, blo, 0⟩ (le_refl alo) (by omega) (fun j hj => by simp at hj) h0
  have harith : alo + (ahi - alo) = ahi := by omega
  rw [harith] at this
  exact this

/-! ### Total matched size: bound and the full-match case -/

theorem matchesAux_le (a b : List Char) :
    ∀ (fuel alo ahi blo bhi : Nat), alo ≤ ahi → blo ≤ bhi → ahi ≤ a.length →
      matchesAux a b fuel alo ahi blo bhi ≤ min (ahi - alo) (bhi - blo)
  | 0, alo, ahi, blo, bhi, _, _, _ => Nat.zero_le _
  | fuel + 1, alo, ahi, blo, bhi, ha, hb, hal => by
    rw [matchesAux]
    obtain ⟨h1, h2, h3, h4, -⟩ := find_longest_match_spec a b alo ahi blo bhi ha hb hal
    set m := find_longest_match a b alo ahi blo bhi with hm
    by_cases hk : m.bestsize = 0
    · rw [if_pos hk]
      exact Nat.zero_le _
    · rw [if_neg hk]
      have hL : (if alo < m.besti ∧ blo < m.bestj then
          matchesAux a b fuel alo m.besti blo m.bestj else 0) ≤
          min (m.besti - alo) (m.bestj - blo) := by
        split
        · exact matchesAux_le a b fuel alo m.besti blo m.bestj h1 h2 (by omega)
        · exact Nat.zero_le _
      have hR : (if m.besti + m.bestsize < ahi ∧ m.bestj + m.bestsize < bhi then
          matchesAux a b fuel (m.besti + m.bestsize) ahi
            (m.bestj + m.bestsize) bhi else 0) ≤
          min (ahi - (m.besti + m.bestsize)) (bhi - (m.bestj + m.bestsize)) := by
        split
        · exact matchesAux_le a b fuel (m.besti + m.bestsize) ahi
            (m.bestj + m.bestsize) bhi h3 h4 hal
        · exact Nat.zero_le _
      omega

theorem matchesAux_full (a b : List Char) :
    ∀ (fuel alo ahi blo bhi : Nat), alo ≤ ahi → blo ≤ bhi → ahi ≤ a.length →
      matchesAux a b fuel alo ahi blo bhi = ahi - alo →
      matchesAux a b fuel alo ahi blo bhi = bhi - blo →
      ∀ t, alo + t < ahi → a.getD (alo + t) ' ' = b.getD (blo + t) ' '
  | 0, alo, ahi, blo, bhi, ha, hb, hal, hA, hB, t, ht => by
    rw [matchesAux] at hA
    omega
  | fuel + 1, alo, ahi, blo, bhi, ha, hb, hal, hA, hB, t, ht => by
    rw [matchesAux] at hA hB
    obtain ⟨h1, h2, h3, h4, h5⟩ := find_longest_match_spec a b alo ahi blo bhi ha hb hal
    set m := find_longest_match a b alo ahi blo bhi with hm
    by_cases hk : m.bestsize = 0
    · rw [if_pos hk] at hA
      omega
    · rw [if_neg hk] at hA hB
      have hL : (if alo < m.besti ∧ blo < m.bestj then
          matchesAux a b fuel alo m.besti blo m.bestj else 0) ≤
          min (m.besti - alo) (m.bestj - blo) := by
        split
        · exact matchesAux_le a b fuel alo m.besti blo m.bestj h1 h2 (by omega)
        · exact Nat.zero_le _
      have hR : (if m.besti + m.bestsize < ahi ∧ m.bestj + m.bestsize < bhi then
          matchesAux a b fuel (m.besti + m.bestsize) ahi
            (m.bestj + m.bestsize) bhi else 0) ≤
          min (ahi - (m.besti + m.bestsize)) (bhi - (m.bestj + m.bestsize)) := by
        split
        · exact matchesAux_le a b fuel (m.besti + m.bestsize) ahi
            (m.bestj + m.bestsize) bhi h3 h4 hal
        · exact Nat.zero_le _
      by_cases hzone1 : alo + t < m.besti
      · have hguard : alo < m.besti ∧ blo < m.bestj := by omega
        rw [if_pos hguard] at hA hB hL
        have hLA : matchesAux a b fuel alo m.besti blo m.bestj = m.besti - alo := by
          omega
        have hLB : matchesAux a b fuel alo m.besti blo m.bestj = m.bestj - blo := by
          omega
        exact matchesAux_full a b fuel alo m.besti blo m.bestj h1 h2 (by omega)
          hLA hLB t (by omega)
      · by_cases hzone2 : alo + t < m.besti + m.bestsize
        · have hdiag : m.besti - alo = m.bestj - blo := by
            by_cases hguard : alo < m.besti ∧ blo < m.bestj
            · rw [if_pos hguard] at hA hB hL
              omega
            · rw [if_neg hguard] at hA hB
              omega
          have hs := h5 (alo + t - m.besti) (by omega)
          have hia : m.besti + (alo + t - m.besti) = alo + t := by omega
          have hib : m.bestj + (alo + t - m.besti) = blo + t := by omega
          rw [hia, hib] at hs
          exact hs
        · have hguard : m.besti + m.bestsize < ahi ∧ m.bestj + m.bestsize < bhi := by
            by_cases hg : m.besti + m.bestsize < ahi ∧ m.bestj + m.bestsize < bhi
            · exact hg
            · rw [if_neg hg] at hA hB
              exfalso
              omega
          rw [if_pos hguard] at hA hB hR
          have hdiag : m.besti - alo = m.bestj - blo := by
            by_cases hg : alo < m.besti ∧ blo < m.bestj
            · rw [if_pos hg] at hA hB hL
              omega
            · rw [if_neg hg] at hA hB
              omega
          have hRA : matchesAux a b fuel (m.besti + m.bestsize) ahi
              (m.bestj + m.bestsize) bhi = ahi - (m.besti + m.bestsize) := by
            by_cases hg : alo < m.besti ∧ blo < m.bestj
            · rw [if_pos hg] at hA hB hL
              omega
            · rw [if_neg hg] at hA hB
              omega
          have hRB : matchesAux a b fuel (m.besti + m.bestsize) ahi
              (m.bestj + m.bestsize) bhi = bhi - (m.bestj + m.bestsize) := by
            by_cases hg : alo < m.besti ∧ blo < m.bestj
            · rw [if_pos hg] at hA hB hL
              omega
            · rw [if_neg hg] at hA hB
              omega
          have hsub := matchesAux_full a b fuel (m.besti + m.bestsize) ahi
            (m.bestj + m.bestsize) bhi h3 h4 hal hRA hRB
            (alo + t - (m.besti + m.bestsize)) (by omega)
          have hia : m.besti + m.bestsize + (alo + t - (m.besti + m.bestsize))
              = alo + t := by omega
          have hib : m.bestj + m.bestsize + (alo + t - (m.besti + m.bestsize))
              = blo + t := by omega
          rw [hia, hib] at hsub
          exact hsub

/-! ### `find_longest_match` on identical strings: the diagonal analysis -/

theorem runD_zero (s : List Char) (alo : Nat) :
    runD s alo 0 = if isPopular s (s.getD 0 ' ') then 0 else 1 := rfl

theorem runD_succ (s : List Char) (alo i : Nat) :
    runD s alo (i + 1) = if isPopular s (s.getD (i + 1) ' ') then 0
      else if i + 1 ≤ alo then 1 else runD s alo i + 1 := rfl

theorem runD_le (s : List Char) (alo : Nat) :
    ∀ i, alo ≤ i → alo + runD s alo i ≤ i + 1
  | 0, h => by
    rw [runD_zero]
    split <;> omega
  | i + 1, h => by
    rw [runD_succ]
    split
    · omega
    · split
      · omega
      · have := runD_le s alo i (by omega)
        omega

theorem runD_pos {s : List Char} {alo i : Nat}
    (h : isPopular s (s.getD i ' ') = false) : 1 ≤ runD s alo i := by
  cases i with
  | zero =>
    rw [runD_zero, if_neg (by rw [h]; simp)]
  | succ n =>
    rw [runD_succ, if_neg (by rw [h]; simp)]
    split <;> omega

theorem runD_pop {s : List Char} {alo i : Nat}
    (h : isPopular s (s.getD i ' ') = true) : runD s alo i = 0 := by
  cases i with
  | zero => rw [runD_zero, if_pos h]
  | succ n => rw [runD_succ, if_pos h]

theorem runD_step {s : List Char} {alo i : Nat}
    (h : isPopular s (s.getD i ' ') = false) (hai : alo < i) :
    runD s alo i = runD s alo (i - 1) + 1 := by
  cases i with
  | zero => omega
  | succ n =>
    rw [runD_succ, if_neg (by rw [h]; simp), if_neg (by omega)]
    simp

theorem chainLen_diag {s : List Char} {alo i : Nat} {o : Nat → Nat}
    (hai : alo ≤ i) (ho : DOInv s alo i o)
    (hnp : isPopular s (s.getD i ' ') = false) :
    chainLen o i = runD s alo i := by
  unfold chainLen
  by_cases hi0 : i = 0
  · subst hi0
    rw [if_pos rfl, runD_zero, if_neg (by rw [hnp]; simp)]
  · rw [if_neg hi0]
    by_cases hia : alo < i
    · rw [ho.2.1 hia, ← runD_step hnp hia]
    · rw [ho.2.2 (by omega) (i - 1)]
      cases i with
      | zero => omega
      | succ n =>
        rw [runD_succ, if_neg (by rw [hnp]; simp), if_pos (by omega)]

theorem diag_write_fact {s : List Char} {alo i : Nat} {o : Nat → Nat}
    (hai : alo ≤ i) (ho : DOInv s alo i o)
    (hnp : isPopular s (s.getD i ' ') = false)
    {x : Nat} (hx : s.getD x ' ' = s.getD i ' ') (hxlo : alo ≤ x) :
    alo + chainLen o x ≤ x + 1 ∧ chainLen o x ≤ runD s alo x ∧
      chainLen o x ≤ runD s alo i := by
  have hnpx : isPopular s (s.getD x ' ') = false := by rw [hx]; exact hnp
  have hrx : 1 ≤ runD s alo x := runD_pos hnpx
  have hri : 1 ≤ runD s alo i := runD_pos hnp
  unfold chainLen
  by_cases hx0 : x = 0
  · subst hx0
    rw [if_pos rfl]
    exact ⟨by omega, by omega, by omega⟩
  · rw [if_neg hx0]
    by_cases ho0 : 1 ≤ o (x - 1)
    · obtain ⟨hxa, hxb, hxc, hxd⟩ := ho.1 (x - 1) ho0
      have halox : alo < x := by omega
      have hrxs : runD s alo x = runD s alo (x - 1) + 1 := runD_step hnpx halox
      by_cases hia : alo < i
      · have hris : runD s alo i = runD s alo (i - 1) + 1 := runD_step hnp hia
        have := hxd hia
        exact ⟨by omega, by omega, by omega⟩
      · rw [ho.2.2 (by omega) (x - 1)] at ho0
        omega
    · have hz : o (x - 1) = 0 := by omega
      rw [hz]
      exact ⟨by omega, by omega, by omega⟩

theorem innerLoop_append {blo bhi i : Nat} {o : Nat → Nat} :
    ∀ (l₁ l₂ : List Nat) (nj : Nat → Nat) (bst : Best),
      (∀ j ∈ l₁, j < bhi) →
      innerLoop blo bhi i o (l₁ ++ l₂) nj bst =
        innerLoop blo bhi i o l₂ (innerLoop blo bhi i o l₁ nj bst).1
          (innerLoop blo bhi i o l₁ nj bst).2
  | [], l₂, nj, bst, _ => rfl
  | j :: l₁, l₂, nj, bst, hl => by
    have hjhi : ¬bhi ≤ j := by
      have := hl j (List.mem_cons_self j l₁)
      omega
    have htail := fun x hx => hl x (List.mem_cons_of_mem j hx)
    rw [List.cons_append]
    by_cases hlo : j < blo
    · rw [show innerLoop blo bhi i o (j :: (l₁ ++ l₂)) nj bst
          = innerLoop blo bhi i o (l₁ ++ l₂) nj bst by
        rw [innerLoop, if_pos hlo]]
      rw [show innerLoop blo bhi i o (j :: l₁) nj bst
          = innerLoop blo bhi i o l₁ nj bst by
        rw [innerLoop, if_pos hlo]]
      exact innerLoop_append l₁ l₂ nj bst htail
    · rw [show innerLoop blo bhi i o (j :: (l₁ ++ l₂)) nj bst
          = innerLoop blo bhi i o (l₁ ++ l₂)
              (fun x => if x = j then chainLen o j else nj x)
              (if bst.bestsize < chainLen o j then
                ⟨i + 1 - chainLen o j, j + 1 - chainLen o j, chainLen o j⟩
              else bst) by
        rw [innerLoop, if_neg hlo, if_neg hjhi]]
      rw [show innerLoop blo bhi i o (j :: l₁) nj bst
          = innerLoop blo bhi i o l₁
              (fun x => if x = j then chainLen o j else nj x)
              (if bst.bestsize < chainLen o j then
                ⟨i + 1 - chainLen o j, j + 1 - chainLen o j, chainLen o j⟩
              else bst) by
        rw [innerLoop, if_neg hlo, if_neg hjhi]]
      exact innerLoop_append l₁ l₂ _ _ htail

theorem innerLoop_writes {blo bhi i : Nat} {o : Nat → Nat} :
    ∀ (js : List Nat) (nj : Nat → Nat) (bst : Best),
      (∀ j ∈ js, blo ≤ j → j < bhi → chainLen o j ≤ bst.bestsize) →
      (innerLoop blo bhi i o js nj bst).2 = bst ∧
      ∀ x, (innerLoop blo bhi i o js nj bst).1 x = nj x ∨
        (x ∈ js ∧ blo ≤ x ∧ x < bhi ∧
          (innerLoop blo bhi i o js nj bst).1 x = chainLen o x)
  | [], nj, bst, _ => ⟨rfl, fun _ => Or.inl rfl⟩
  | j :: js, nj, bst, hno => by
    rw [innerLoop]
    by_cases hlo : j < blo
    · rw [if_pos hlo]
      obtain ⟨hb, hw⟩ := innerLoop_writes js nj bst
        (fun x hx => hno x (List.mem_cons_of_mem j hx))
      refine ⟨hb, fun x => ?_⟩
      rcases hw x with h | ⟨h1, h2, h3, h4⟩
      · exact Or.inl h
      · exact Or.inr ⟨List.mem_cons_of_mem j h1, h2, h3, h4⟩
    · rw [if_neg hlo]
      by_cases hhi : bhi ≤ j
      · rw [if_pos hhi]
        exact ⟨rfl, fun _ => Or.inl rfl⟩
      · have hk := hno j (List.mem_cons_self j js) (by omega) (by omega)
        rw [if_neg hhi]
        dsimp only
        rw [if_neg (by omega : ¬bst.bestsize < chainLen o j)]
        obtain ⟨hb, hw⟩ := innerLoop_writes js
          (fun x => if x = j then chainLen o j else nj x) bst
          (fun x hx => hno x (List.mem_cons_of_mem j hx))
        refine ⟨hb, fun x => ?_⟩
        rcases hw x with h | ⟨h1, h2, h3, h4⟩
        · by_cases hxj : x = j
          · subst hxj
            rw [if_pos rfl] at h
            exact Or.inr ⟨List.mem_cons_self x js, by omega, by omega, h⟩
          · rw [if_neg hxj] at h
            exact Or.inl h
        · exact Or.inr ⟨List.mem_cons_of_mem j h1, h2, h3, h4⟩

theorem bj_diag_split {s : List Char} {i : Nat} (hil : i < s.length)
    (hp : isPopular s (s.getD i ' ') = false) :
    bj s (s.getD i ' ') = diagLow s i ++ i :: diagHigh s i := by
  unfold bj diagLow diagHigh
  rw [if_neg (by rw [hp]; simp), List.range_eq_range']
  have h1 := List.range'_append_1 0 i (s.length - i)
  simp only [Nat.zero_add] at h1
  rw [show s.length - i + i = s.length by omega] at h1
  rw [← h1, List.filter_append]
  congr 1
  rw [show s.length - i = (s.length - i - 1) + 1 by omega, List.range'_succ,
    List.filter_cons, if_pos (by simp)]
  simp only [Nat.add_sub_cancel]

theorem mem_diagLow {s : List Char} {i j : Nat} (hj : j ∈ diagLow s i) :
    j < i ∧ s.getD j ' ' = s.getD i ' ' := by
  obtain ⟨hr, hpj⟩ := List.mem_filter.mp hj
  have := List.mem_range'_1.mp hr
  exact ⟨by omega, by simpa using hpj⟩

theorem mem_diagHigh {s : List Char} {i j : Nat} (hj : j ∈ diagHigh s i) :
    i + 1 ≤ j ∧ s.getD j ' ' = s.getD i ' ' := by
  obtain ⟨hr, hpj⟩ := List.mem_filter.mp hj
  have := List.mem_range'_1.mp hr
  exact ⟨by omega, by simpa using hpj⟩

theorem diag_row {s : List Char} {alo ahi i : Nat}
    (hai : alo ≤ i) (hia : i < ahi) (hahi : ahi ≤ s.length)
    {o : Nat → Nat} {bst : Best}
    (ho : DOInv s alo i o) (hbst : DBest s alo i bst) :
    DOInv s alo (i + 1)
        (innerLoop alo ahi i o (bj s (s.getD i ' ')) (fun _ => 0) bst).1 ∧
      DBest s alo (i + 1)
        (innerLoop alo ahi i o (bj s (s.getD i ' ')) (fun _ => 0) bst).2 := by
  obtain ⟨hd1, hd2, hd3, hd4⟩ := hbst
  cases hp : isPopular s (s.getD i ' ') with
  | true =>
    rw [show bj s (s.getD i ' ') = [] by unfold bj; rw [if_pos hp]]
    rw [show innerLoop alo ahi i o [] (fun _ => 0) bst
      = ((fun _ => 0), bst) from rfl]
    dsimp only
    constructor
    · refine ⟨fun j hj => absurd hj (by simp), fun _ => ?_, fun _ j => rfl⟩
      simp only [Nat.add_sub_cancel]
      exact (runD_pop hp).symm
    · refine ⟨hd1, hd2, by omega, fun i' h1 h2 => ?_⟩
      by_cases hi' : i' = i
      · subst hi'
        rw [runD_pop hp]
        omega
      · exact hd4 i' h1 (by omega)
  | false =>
    have hsplit := bj_diag_split (by omega) hp
    have hno₁ : ∀ j ∈ diagLow s i, alo ≤ j → j < ahi →
        chainLen o j ≤ bst.bestsize := by
      intro j hj hjl hjh
      obtain ⟨hji, hjc⟩ := mem_diagLow hj
      have hwf := diag_write_fact hai ho hp hjc hjl
      have hmax := hd4 j hjl hji
      omega
    obtain ⟨hb₁, hw₁⟩ := @innerLoop_writes alo ahi i o (diagLow s i)
      (fun _ => 0) bst hno₁
    have hk : chainLen o i = runD s alo i := chainLen_diag hai ho hp
    have hkle := runD_le s alo i hai
    have hkpos : 1 ≤ runD s alo i := runD_pos hp
    have hstep : innerLoop alo ahi i o (bj s (s.getD i ' ')) (fun _ => 0) bst
        = innerLoop alo ahi i o (diagHigh s i)
            (fun x => if x = i then chainLen o i
              else (innerLoop alo ahi i o (diagLow s i) (fun _ => 0) bst).1 x)
            (if bst.bestsize < chainLen o i then
              ⟨i + 1 - chainLen o i, i + 1 - chainLen o i, chainLen o i⟩
            else bst) := by
      rw [hsplit, innerLoop_append (diagLow s i) (i :: diagHigh s i) _ _
        (fun j hj => by
          have := (mem_diagLow hj).1
          omega)]
      rw [hb₁, innerLoop, if_neg (by omega), if_neg (by omega)]
    by_cases hrec : bst.bestsize < chainLen o i
    · rw [hstep, if_pos hrec]
      have hno₂ : ∀ j ∈ diagHigh s i, alo ≤ j → j < ahi →
          chainLen o j ≤
            (⟨i + 1 - chainLen o i, i + 1 - chainLen o i, chainLen o i⟩ :
              Best).bestsize := by
        intro j hj hjl hjh
        have hwf := (diag_write_fact hai ho hp (mem_diagHigh hj).2 hjl).2.2
        simp only
        omega
      obtain ⟨hb₂, hw₂⟩ := @innerLoop_writes alo ahi i o (diagHigh s i)
        (fun x => if x = i then chainLen o i
          else (innerLoop alo ahi i o (diagLow s i) (fun _ => 0) bst).1 x)
        ⟨i + 1 - chainLen o i, i + 1 - chainLen o i, chainLen o i⟩ hno₂
      constructor
      · refine ⟨?_, ?_, fun h => by omega⟩
        · intro x hx
          rcases hw₂ x with hx2 | ⟨hxm, hxl, hxh, hx2⟩
          · rw [hx2] at hx ⊢
            by_cases hxi : x = i
            · subst hxi
              simp only [eq_self_iff_true, if_true] at hx ⊢
              rw [hk]
              exact ⟨hai, by omega, le_refl _, fun _ => by
                simp only [Nat.add_sub_cancel]
                exact le_refl _⟩
            · rw [if_neg hxi] at hx ⊢
              rcases hw₁ x with hx1 | ⟨hxm1, hxl1, hxh1, hx1⟩
              · rw [hx1] at hx
                exact absurd hx (by omega)
              · rw [hx1] at hx ⊢
                have hwf := diag_write_fact hai ho hp (mem_diagLow hxm1).2 hxl1
                exact ⟨hxl1, hwf.1, hwf.2.1, fun _ => by
                  simp only [Nat.add_sub_cancel]
                  exact hwf.2.2⟩
          · rw [hx2] at hx ⊢
            have hwf := diag_write_fact hai ho hp (mem_diagHigh hxm).2 hxl
            exact ⟨hxl, hwf.1, hwf.2.1, fun _ => by
              simp only [Nat.add_sub_cancel]
              exact hwf.2.2⟩
        · intro _
          simp only [Nat.add_sub_cancel]
          rcases hw₂ i with hx2 | ⟨-, -, -, hx2⟩
          · rw [hx2]
            simp only [eq_self_iff_true, if_true]
            exact hk
          · rw [hx2]
            exact hk
      · rw [hb₂]
        refine ⟨rfl, by simp only; omega, by simp only; omega,
          fun i' h1 h2 => ?_⟩
        by_cases hi' : i' = i
        · subst hi'
          simp only
          omega
        · have := hd4 i' h1 (by omega)
          simp only
          omega
    · rw [hstep, if_neg hrec]
      have hno₂ : ∀ j ∈ diagHigh s i, alo ≤ j → j < ahi →
          chainLen o j ≤ bst.bestsize := by
        intro j hj hjl hjh
        have hwf := (diag_write_fact hai ho hp (mem_diagHigh hj).2 hjl).2.2
        omega
      obtain ⟨hb₂, hw₂⟩ := @innerLoop_writes alo ahi i o (diagHigh s i)
        (fun x => if x = i then chainLen o i
          else (innerLoop alo ahi i o (diagLow s i) (fun _ => 0) bst).1 x)
        bst hno₂
      constructor
      · refine ⟨?_, ?_, fun h => by omega⟩
        · intro x hx
          rcases hw₂ x with hx2 | ⟨hxm, hxl, hxh, hx2⟩
          · rw [hx2] at hx ⊢
            by_cases hxi : x = i
            · subst hxi
              simp only [eq_self_iff_true, if_true] at hx ⊢
              rw [hk]
              exact ⟨hai, by omega, le_refl _, fun _ => by
                simp only [Nat.add_sub_cancel]
                exact le_refl _⟩
            · rw [if_neg hxi] at hx ⊢
              rcases hw₁ x with hx1 | ⟨hxm1, hxl1, hxh1, hx1⟩
              · rw [hx1] at hx
                exact absurd hx (by omega)
              · rw [hx1] at hx ⊢
                have hwf := diag_write_fact hai ho hp (mem_diagLow hxm1).2 hxl1
                exact ⟨hxl1, hwf.1, hwf.2.1, fun _ => by
                  simp only [Nat.add_sub_cancel]
                  exact hwf.2.2⟩
          · rw [hx2] at hx ⊢
            have hwf := diag_write_fact hai ho hp (mem_diagHigh hxm).2 hxl
            exact ⟨hxl, hwf.1, hwf.2.1, fun _ => by
              simp only [Nat.add_sub_cancel]
              exact hwf.2.2⟩
        · intro _
          simp only [Nat.add_sub_cancel]
          rcases hw₂ i with hx2 | ⟨-, -, -, hx2⟩
          · rw [hx2]
            simp only [eq_self_iff_true, if_true]
            exact hk
          · rw [hx2]
            exact hk
      · rw [hb₂]
        refine ⟨hd1, hd2, by omega, fun i' h1 h2 => ?_⟩
        by_cases hi' : i' = i
        · subst hi'
          omega
        · exact hd4 i' h1 (by omega)

theorem diag_outer {s : List Char} {alo ahi : Nat} (hahi : ahi ≤ s.length) :
    ∀ (n i : Nat) (o : Nat → Nat) (bst : Best),
      alo ≤ i → i + n = ahi →
      DOInv s alo i o → DBest s alo i bst →
      DBest s alo ahi (outerLoop s s alo ahi (List.range' i n) o bst)
  | 0, i, o, bst, hi, hn, _, hbst => by
    rw [show List.range' i 0 = [] from rfl, outerLoop]
    rw [show i = ahi by omega] at hbst
    exact hbst
  | n + 1, i, o, bst, hi, hn, ho, hbst => by
    rw [List.range'_succ, outerLoop]
    have hrow := diag_row hi (by omega) hahi ho hbst
    exact diag_outer hahi n (i + 1) _ _ (by omega) (by omega) hrow.1 hrow.2

theorem extendLeft_diag (s : List Char) (alo : Nat) :
    ∀ (fuel : Nat) (bst : Best), bst.besti = bst.bestj → alo ≤ bst.besti →
      bst.besti ≤ alo + fuel →
      extendLeft s s alo alo fuel bst =
        ⟨alo, alo, bst.bestsize + (bst.besti - alo)⟩
  | 0, bst, hd, hlo, hf => by
    rw [extendLeft]
    have h1 : bst.besti = alo := by omega
    have h2 : bst.bestj = alo := by omega
    cases bst
    simp_all
  | fuel + 1, bst, hd, hlo, hf => by
    rw [extendLeft]
    by_cases hg : alo < bst.besti
    · rw [if_pos ⟨hg, by omega, by rw [hd]⟩]
      rw [extendLeft_diag s alo fuel _ (by simp [hd]) (by simp; omega)
        (by simp; omega)]
      simp only
      congr 1
      omega
    · rw [if_neg (fun hco => hg hco.1)]
      have h1 : bst.besti = alo := by omega
      have h2 : bst.bestj = alo := by omega
      cases bst
      simp_all

theorem extendRight_diag (s : List Char) (ahi : Nat) :
    ∀ (fuel : Nat) (bst : Best), bst.besti = bst.bestj →
      bst.besti + bst.bestsize ≤ ahi → ahi ≤ bst.besti + bst.bestsize + fuel →
      extendRight s s ahi ahi fuel bst =
        ⟨bst.besti, bst.bestj, ahi - bst.besti⟩
  | 0, bst, hd, hle, hf => by
    rw [extendRight]
    have h1 : bst.bestsize = ahi - bst.besti := by omega
    cases bst
    simp_all
  | fuel + 1, bst, hd, hle, hf => by
    rw [extendRight]
    by_cases hg : bst.besti + bst.bestsize < ahi
    · rw [if_pos ⟨hg, by omega, by rw [hd]⟩]
      rw [extendRight_diag s ahi fuel _ (by simp [hd]) (by simp; omega)
        (by simp; omega)]
    · rw [if_neg (fun hco => hg hco.1)]
      have h1 : bst.bestsize = ahi - bst.besti := by omega
      cases bst
      simp_all

theorem find_longest_match_diag (s : List Char) (alo ahi : Nat)
    (ha : alo ≤ ahi) (hhi : ahi ≤ s.length) :
    find_longest_match s s alo ahi alo ahi = ⟨alo, alo, ahi - alo⟩ := by
  unfold find_longest_match
  have hbst0 : DBest s alo alo ⟨alo, alo, 0⟩ :=
    ⟨rfl, le_refl alo, by simp, fun i' h1 h2 => absurd h2 (by omega)⟩
  have ho0 : DOInv s alo alo (fun _ => 0) :=
    ⟨fun j hj => absurd hj (by simp), fun h => absurd h (by omega), fun _ _ => rfl⟩
  have hmain := diag_outer hhi (ahi - alo) alo (fun _ => 0) ⟨alo, alo, 0⟩
    (le_refl alo) (by omega) ho0 hbst0
  obtain ⟨hm1, hm2, hm3, -⟩ := hmain
  rw [extendLeft_diag s alo _ _ hm1 hm2 (by omega)]
  rw [extendRight_diag s ahi ahi _ rfl (by simp only; omega) (by simp only; omega)]

theorem matchesTotal_self (s : List Char) : matchesTotal s s = s.length := by
  unfold matchesTotal
  rw [matchesAux]
  rw [find_longest_match_diag s 0 s.length (Nat.zero_le _) (le_refl _)]
  by_cases h0 : s.length = 0
  · simp [h0]
  · rw [if_neg (by simpa using h0)]
    rw [if_neg (by simp), if_neg (by simp)]
    simp

theorem match_ratio_eq_div (a b : List Char) :
    match_ratio a b = if a.length + b.length = 0 then 1
      else 2 * (matchesTotal a b : ℚ) / ((a.length : ℚ) + (b.length : ℚ)) := by
  unfold match_ratio
  split
  · rfl
  · rw [Rat.mkRat_eq_divInt, Rat.divInt_eq_div]
    push_cast
    ring

theorem getD_eq_getElem_of_lt {l : List Char} {i : Nat} (h : i < l.length)
    (d : Char) : l.getD i d = l[i] := by
  rw [List.getD_eq_getElem?_getD, List.getElem?_eq_getElem h]
  rfl

/-- Claim C3: the similarity ratio is `1.0` exactly on identical strings —
every string has self-similarity `1.0`, and two strings with ratio `1.0`
are equal. -/
theorem c3_ratio_one_iff_eq (a b : List Char) : match_ratio a b = 1 ↔ a = b := by
  constructor
  · intro h
    rw [match_ratio_eq_div] at h
    by_cases h0 : a.length + b.length = 0
    · have ha : a = [] := List.length_eq_zero.mp (by omega)
      have hb : b = [] := List.length_eq_zero.mp (by omega)
      rw [ha, hb]
    · rw [if_neg h0] at h
      have hden : ((a.length : ℚ) + (b.length : ℚ)) ≠ 0 := by
        intro hc
        exact h0 (by exact_mod_cast hc)
      rw [div_eq_iff hden] at h
      have h2 : 2 * matchesTotal a b = a.length + b.length := by
        exact_mod_cast h.trans (one_mul _)
      have hle := matchesAux_le a b (a.length + b.length + 1) 0 a.length 0 b.length
        (Nat.zero_le _) (Nat.zero_le _) (le_refl _)
      unfold matchesTotal at h2
      have hM : matchesAux a b (a.length + b.length + 1) 0 a.length 0 b.length
          = a.length ∧
          matchesAux a b (a.length + b.length + 1) 0 a.length 0 b.length
          = b.length := by omega
      have hchars := matchesAux_full a b (a.length + b.length + 1) 0 a.length 0
        b.length (Nat.zero_le _) (Nat.zero_le _) (le_refl _) (by omega) (by omega)
      have hlen : a.length = b.length := by omega
      apply List.ext_getElem hlen
      intro i h1 h2'
      have := hchars i (by omega)
      rw [Nat.zero_add] at this
      rw [← getD_eq_getElem_of_lt h1 ' ', ← getD_eq_getElem_of_lt h2' ' ']
      exact this
  · rintro rfl
    rw [match_ratio_eq_div]
    by_cases h0 : a.length + a.length = 0
    · rw [if_pos h0]
    · rw [if_neg h0, matchesTotal_self]
      have hne : ((a.length : ℚ) + (a.length : ℚ)) ≠ 0 := by
        intro hc
        exact h0 (by exact_mod_cast hc)
      field_simp
      ring

/-! ### Similarity is not symmetric (claim C1) -/

/-- Claim C1 counterexample: `difflib`'s greedy matching-block ratio is not
symmetric — on the normalized strings `"tide"` and `"diet"` the two
argument orders give `1/4` and `1/2`. -/
theorem c1_ratio_not_symmetric_cex :
    match_ratio ("tide".toList) ("diet".toList) ≠
      match_ratio ("diet".toList) ("tide".toList) := by
  decide

theorem bj_disjoint {a b : List Char} (hd : ∀ c ∈ a, c ∉ b) {i : Nat}
    (hi : i < a.length) : bj b (a.getD i ' ') = [] := by
  unfold bj
  split
  · rfl
  · rw [List.filter_eq_nil_iff]
    intro j hj
    simp only [beq_iff_eq]
    intro hc
    have hjb : j < b.length := List.mem_range.mp hj
    have hmem : b.getD j ' ' ∈ b := by
      rw [getD_eq_getElem_of_lt hjb]
      exact List.getElem_mem hjb
    have hmem' : a.getD i ' ' ∈ a := by
      rw [getD_eq_getElem_of_lt hi]
      exact List.getElem_mem hi
    rw [hc] at hmem
    exact hd (a.getD i ' ') hmem' hmem

theorem outerLoop_empty {a b : List Char} {blo bhi : Nat} :
    ∀ (rows : List Nat) (o : Nat → Nat) (bst : Best),
      (∀ i ∈ rows, bj b (a.getD i ' ') = []) →
      outerLoop a b blo bhi rows o bst = bst
  | [], _, _, _ => rfl
  | i :: rows, o, bst, h => by
    rw [outerLoop, h i (List.mem_cons_self i rows)]
    exact outerLoop_empty rows _ _ (fun x hx => h x (List.mem_cons_of_mem i hx))

theorem find_longest_match_disjoint {a b : List Char}
    (hd : ∀ c ∈ a, c ∉ b) :
    find_longest_match a b 0 a.length 0 b.length = ⟨0, 0, 0⟩ := by
  unfold find_longest_match
  rw [outerLoop_empty (List.range' 0 (a.length - 0)) (fun _ => 0) ⟨0, 0, 0⟩
    (fun i hi => bj_disjoint hd (by
      have := List.mem_range'_1.mp hi
      omega))]
  rw [show extendLeft a b 0 0 (⟨0, 0, 0⟩ : Best).besti ⟨0, 0, 0⟩
    = ⟨0, 0, 0⟩ from rfl]
  cases hb : b.length with
  | zero =>
    cases ha : a.length with
    | zero => rfl
    | succ m =>
      rw [extendRight, if_neg (by
        rintro ⟨-, h2, -⟩
        simp at h2)]
  | succ n =>
    cases ha : a.length with
    | zero => rfl
    | succ m =>
      rw [extendRight, if_neg (by
        rintro ⟨h1, h2, h3⟩
        simp only at h1 h2 h3
        have hmem : a.getD 0 ' ' ∈ a := by
          rw [getD_eq_getElem_of_lt (by omega)]
          exact List.getElem_mem (by omega)
        have hmem' : b.getD 0 ' ' ∈ b := by
          rw [getD_eq_getElem_of_lt (by omega)]
          exact List.getElem_mem (by omega)
        rw [h3] at hmem
        exact hd (b.getD 0 ' ') hmem hmem')]

theorem matchesTotal_disjoint {a b : List Char} (hd : ∀ c ∈ a, c ∉ b) :
    matchesTotal a b = 0 := by
  unfold matchesTotal
  rw [matchesAux, find_longest_match_disjoint hd]
  simp

/-- Claim C1 (amended): the ratio is not symmetric in general (see the
counterexample), but it is symmetric on every pair of strings sharing no
characters — both orders then yield ratio `0` (or `1` when both strings
are empty). -/
theorem c1_ratio_symmetric_of_disjoint (a b : List Char)
    (hd : ∀ c ∈ a, c ∉ b) :
    match_ratio a b = match_ratio b a := by
  have hd' : ∀ c ∈ b, c ∉ a := fun c hc hca => hd c hca hc
  rw [match_ratio_eq_div, match_ratio_eq_div]
  by_cases h : a.length + b.length = 0
  · rw [if_pos h, if_pos (by omega)]
  · rw [if_neg h, if_neg (by omega), matchesTotal_disjoint hd,
      matchesTotal_disjoint hd']
    simp

theorem c1_ratio_symmetric_of_disjoint_witness :
    (∀ c ∈ ("ab".toList), c ∉ ("cd".toList)) ∧
      match_ratio ("ab".toList) ("cd".toList) =
        match_ratio ("cd".toList) ("ab".toList) :=
  ⟨by decide, c1_ratio_symmetric_of_disjoint ("ab".toList) ("cd".toList) (by decide)⟩
